import Mathlib

/-!
# FanOut: splitting a keyed stream into per-key streams

A verification development for `FanOut` of `splitstreamtomultiple.go`.

The dispatcher goroutine (lines 30-54) is embedded as a labelled transition
system.  A state holds the goroutine's variables (`fanOutMap`, `chanID`), the
allocator of output channels, which channels are closed, and a program
counter naming the statement the goroutine is suspended at.  An event is one
completed channel operation of the goroutine.  `step s e` is the state after
`e` when `e` is possible in `s`, and `none` when it is not; `exec` runs a
whole list of events.  The environment (producer, cancellation, consumers and
the iteration order of `range` over a map) chooses among the possible events.
Consumers only receive: the dispatcher alone sends on and closes the channels
it makes.

The key type `K` is any Go type that satisfies `comparable`.  What the
dispatcher uses of it is Go's `==`, through the map operations, and the
hashing of a key by the map.  Both are parameters of the model (`GoKey`): `==`
is symmetric and transitive but need not be reflexive (a `float64` NaN is not
equal to itself), and hashing a key panics when `K` is an interface type and
the key holds a value of a type that cannot be hashed (a slice in an `any`).
For strings and integers `==` is equality and every key can be hashed.  A
lookup with a key that is not `==` to itself finds nothing, so after the
receipt of such a key line 42 announces the zero value and line 44 sends on
the nil channel, for ever (`stalled`); the lookup of line 38 with a key that
cannot be hashed ends the goroutine (`PC.crashed`).

`chanID` is a Go `int`.  It is modelled as a natural number: the counter is
one more than the number of entries of `fanOutMap` (`registry_ids` below), and
every entry holds a live channel, so the counter stays far below `2^63`.
-/

set_option linter.unusedSectionVars false

namespace FanOut

/-- A key-value pair, as `KeyValuePair[K, V]` (lines 15-18). -/
structure KeyValuePair (K V : Type) where
  Key : K
  Value : V
deriving DecidableEq

/-- A reference to an output channel: the serial number of the `make` call
that allocated it. -/
abbrev ChanRef := Nat

/-- An output channel with its ID, as `IdentifiableChan[T]` (lines 21-24).
`Chan = none` is the nil channel of Go's zero value. -/
structure IdentifiableChan where
  ID : Nat
  Chan : Option ChanRef
deriving DecidableEq

/-- The zero value of `IdentifiableChan`, which indexing a Go map yields for
an absent key. -/
def zeroChan : IdentifiableChan := ⟨0, none⟩

/-- The run-time behaviour of the keys of type `K` in a Go map. -/
class GoKey (K : Type) where
  /-- Go's `k1 == k2`. -/
  eq : K → K → Bool
  /-- Whether the map can hash the key; a lookup with a key that it cannot
  hash panics. -/
  hashable : K → Bool
  /-- Go's `==` is symmetric. -/
  eq_symm : ∀ a b, eq a b = eq b a
  /-- Go's `==` is transitive. -/
  eq_trans : ∀ a b c, eq a b = true → eq b c = true → eq a c = true

/-- A Go map `map[K]IdentifiableChan` as an association list, in order of
insertion. -/
abbrev GoMap (K : Type) := List (K × IdentifiableChan)

/-- The comma-ok lookup `v, ok := m[k]`: `none` when `ok` is false.  The
entry found is the one whose key is `==` to `k`. -/
def mapGet {K : Type} [GoKey K] : GoMap K → K → Option IdentifiableChan
  | [], _ => none
  | (k', v) :: m, k => if GoKey.eq k' k then some v else mapGet m k

/-- The index expression `m[k]`: the zero value for a key that is not found. -/
def mapIndex {K : Type} [GoKey K] (m : GoMap K) (k : K) : IdentifiableChan :=
  (mapGet m k).getD zeroChan

/-- The assignment `m[k] = v`: overwrites the entry whose key is `==` to `k`,
or adds an entry. -/
def mapSet {K : Type} [GoKey K] : GoMap K → K → IdentifiableChan → GoMap K
  | [], k, v => [(k, v)]
  | (k', v') :: m, k, v =>
    if GoKey.eq k' k then (k, v) :: m else (k', v') :: mapSet m k v

/-- Where the dispatcher goroutine is suspended. -/
inductive PC (K V : Type) where
  /-- At the `select` of line 33, with `cont = true`. -/
  | select
  /-- At the send `fanOutCh <- fanOutMap[kvp.Key]` of line 42. -/
  | announce (kvp : KeyValuePair K V)
  /-- At the send `fanOutMap[kvp.Key].Chan <- kvp` of line 44. -/
  | forward (kvp : KeyValuePair K V)
  /-- In the `range` loop of lines 50-52 with the entries still to visit, and
  at `close(fanOutCh)` of line 53 once none is left. -/
  | shutdown (rest : List IdentifiableChan)
  /-- The goroutine has returned. -/
  | done
  /-- The goroutine has died of the panic of a channel operation. -/
  | panicked
  /-- The goroutine has died of the panic of the map lookup of line 38, on a
  key that cannot be hashed. -/
  | crashed
deriving DecidableEq

/-- A completed operation of the dispatcher goroutine. -/
inductive Event (K V : Type) where
  /-- Line 34 received `kvp` from `inChan` (`okCh = true`). -/
  | recv (kvp : KeyValuePair K V)
  /-- Line 34 found `inChan` closed (`okCh = false`). -/
  | inputClosed
  /-- Line 46 received from `ctx.Done()`. -/
  | cancelled
  /-- A consumer received the value sent on `fanOutCh` at line 42. -/
  | announce (ic : IdentifiableChan)
  /-- A consumer received the pair sent on output channel `ch` at line 44. -/
  | send (ch : ChanRef) (kvp : KeyValuePair K V)
  /-- Line 51 closed output channel `ch`. -/
  | closeChan (ch : ChanRef)
  /-- Line 53 closed `fanOutCh`. -/
  | closeFanOutCh
  /-- The panic of a channel operation: a send on a closed channel, or a close
  of a closed or nil channel. -/
  | panic
deriving DecidableEq

/-- The state of the dispatcher goroutine and of the channels it owns. -/
structure State (K V : Type) where
  /-- The variable `fanOutMap` (line 28). -/
  fanOutMap : GoMap K
  /-- The variable `chanID` (line 31). -/
  chanID : Nat
  /-- How many output channels `make` has allocated (line 40). -/
  allocated : Nat
  /-- The output channels that have been closed. -/
  closed : List ChanRef
  /-- Whether `fanOutCh` has been closed. -/
  fanOutChClosed : Bool
  /-- The statement the goroutine is suspended at. -/
  pc : PC K V
deriving DecidableEq

/-- The state when the goroutine starts: lines 28, 29 and 31 have run. -/
def init (K V : Type) : State K V :=
  { fanOutMap := [], chanID := 1, allocated := 0, closed := [],
    fanOutChClosed := false, pc := PC.select }

/-- Whether `close(ic.Chan)` panics: the channel is nil or already closed. -/
def closePanics (closed : List ChanRef) (ic : IdentifiableChan) : Bool :=
  match ic.Chan with
  | none => true
  | some c => decide (c ∈ closed)

/-- The `select` of lines 33-48.  The lookup of line 38 panics on a received
pair whose key cannot be hashed.  Otherwise a pair whose key is not found in
`fanOutMap` runs lines 40-41 and suspends at the send of line 42; one whose
key is found suspends at the send of line 44.  A closed input or a
cancellation sets `cont = false`, which leaves the loop for line 50. -/
def stepSelect {K V : Type} [GoKey K] (s : State K V) :
    Event K V → Option (State K V)
  | Event.recv kvp =>
    if GoKey.hashable kvp.Key = false then
      some { s with pc := PC.crashed }
    else if (mapGet s.fanOutMap kvp.Key).isSome then
      some { s with pc := PC.forward kvp }
    else
      some { s with
        fanOutMap := mapSet s.fanOutMap kvp.Key ⟨s.chanID, some s.allocated⟩
        allocated := s.allocated + 1
        chanID := s.chanID + 1
        pc := PC.announce kvp }
  | Event.inputClosed => some { s with pc := PC.shutdown (s.fanOutMap.map Prod.snd) }
  | Event.cancelled => some { s with pc := PC.shutdown (s.fanOutMap.map Prod.snd) }
  | _ => none

/-- The send on `fanOutCh` of line 42.  The value sent is what the lookup
`fanOutMap[kvp.Key]` yields.  The send completes when a consumer receives the
value, and panics if `fanOutCh` is closed. -/
def stepAnnounce {K V : Type} [GoKey K] (s : State K V) (kvp : KeyValuePair K V) :
    Event K V → Option (State K V)
  | Event.announce ic =>
    if s.fanOutChClosed then none
    else if ic = mapIndex s.fanOutMap kvp.Key then some { s with pc := PC.forward kvp }
    else none
  | Event.panic => if s.fanOutChClosed then some { s with pc := PC.panicked } else none
  | _ => none

/-- The send on the key's output channel of line 44.  The channel is the one
the lookup `fanOutMap[kvp.Key]` yields.  The send completes when a consumer
receives the pair, panics if the channel is closed, and blocks for ever on a
nil channel. -/
def stepForward {K V : Type} [DecidableEq K] [GoKey K] [DecidableEq V] (s : State K V)
    (kvp : KeyValuePair K V) : Event K V → Option (State K V)
  | Event.send ch kvp' =>
    if (mapIndex s.fanOutMap kvp.Key).Chan = some ch ∧ kvp' = kvp ∧ ch ∉ s.closed then
      some { s with pc := PC.select }
    else none
  | Event.panic =>
    match (mapIndex s.fanOutMap kvp.Key).Chan with
    | none => none
    | some ch => if ch ∈ s.closed then some { s with pc := PC.panicked } else none
  | _ => none

/-- Lines 50-53.  `range` visits the entries of the map once each, in an
order of its choosing; `close` panics on a nil or closed channel. -/
def stepShutdown {K V : Type} (s : State K V) (rest : List IdentifiableChan) :
    Event K V → Option (State K V)
  | Event.closeChan ch =>
    match rest.find? (fun ic => decide (ic.Chan = some ch)) with
    | none => none
    | some ic =>
      if ch ∈ s.closed then none
      else some { s with closed := ch :: s.closed, pc := PC.shutdown (rest.erase ic) }
  | Event.closeFanOutCh =>
    if rest = [] ∧ s.fanOutChClosed = false then
      some { s with fanOutChClosed := true, pc := PC.done }
    else none
  | Event.panic =>
    if rest.any (closePanics s.closed) ∨ (rest = [] ∧ s.fanOutChClosed = true) then
      some { s with pc := PC.panicked }
    else none
  | _ => none

/-- One event of the dispatcher goroutine. -/
def step {K V : Type} [DecidableEq K] [GoKey K] [DecidableEq V] (s : State K V) (e : Event K V) :
    Option (State K V) :=
  match s.pc with
  | PC.select => stepSelect s e
  | PC.announce kvp => stepAnnounce s kvp e
  | PC.forward kvp => stepForward s kvp e
  | PC.shutdown rest => stepShutdown s rest e
  | PC.done => none
  | PC.panicked => none
  | PC.crashed => none

/-- A list of events in sequence. -/
def exec {K V : Type} [DecidableEq K] [GoKey K] [DecidableEq V] (s : State K V) :
    List (Event K V) → Option (State K V)
  | [] => some s
  | e :: tr => (step s e).bind (fun s' => exec s' tr)

/-- The pairs received from `inChan`, in order. -/
def received {K V : Type} : List (Event K V) → List (KeyValuePair K V)
  | [] => []
  | Event.recv kvp :: tr => kvp :: received tr
  | _ :: tr => received tr

/-- The values delivered on `fanOutCh`, in order. -/
def announced {K V : Type} : List (Event K V) → List IdentifiableChan
  | [] => []
  | Event.announce ic :: tr => ic :: announced tr
  | _ :: tr => announced tr

/-- The pairs delivered on output channels, each with its channel, in order. -/
def sent {K V : Type} : List (Event K V) → List (ChanRef × KeyValuePair K V)
  | [] => []
  | Event.send ch kvp :: tr => (ch, kvp) :: sent tr
  | _ :: tr => sent tr

/-- The pairs delivered on output channel `ch`, in order. -/
def sentOn {K V : Type} (ch : ChanRef) (tr : List (Event K V)) : List (KeyValuePair K V) :=
  ((sent tr).filter (fun p => decide (p.1 = ch))).map Prod.snd

/-- The output channels closed, in order. -/
def closedChans {K V : Type} : List (Event K V) → List ChanRef
  | [] => []
  | Event.closeChan ch :: tr => ch :: closedChans tr
  | _ :: tr => closedChans tr

/-- Whether some key of the list is `==` to `k`. -/
def keyIn {K : Type} [GoKey K] (k : K) (keys : List K) : Bool :=
  keys.any (fun k' => GoKey.eq k' k)

/-- The distinct keys of a list in order of first appearance: a key is left
out when an earlier key of the list is `==` to it. -/
def firstSeen {K : Type} [GoKey K] (keys : List K) : List K :=
  keys.foldl (fun acc k => if keyIn k acc then acc else acc ++ [k]) []

/-- The keys of a list of pairs. -/
def keysOf {K V : Type} (input : List (KeyValuePair K V)) : List K :=
  input.map KeyValuePair.Key

/-- A key that the map can hash and that is `==` to itself. -/
def lawfulKey {K : Type} [GoKey K] (k : K) : Bool :=
  GoKey.hashable k && GoKey.eq k k

/-- Go strings as keys: `==` is equality and every string can be hashed. -/
instance goKeyString : GoKey String where
  eq a b := decide (a = b)
  hashable _ := true
  eq_symm a b := by
    by_cases h : a = b
    · subst h
      rfl
    · have h1 : ¬ b = a := fun h1 => h h1.symm
      simp [h, h1]
  eq_trans a b c h1 h2 := by
    simp only [decide_eq_true_eq] at h1 h2 ⊢
    exact h1.trans h2

/-- A Go `float64` as a key: NaN or a number (the integral ones suffice). -/
inductive Float64 where
  | NaN
  | num (x : Int)
deriving DecidableEq

/-- Go's `==` on `float64`: a number is equal to itself, NaN is equal to
nothing, itself included. -/
def Float64.eq : Float64 → Float64 → Bool
  | Float64.num x, Float64.num y => decide (x = y)
  | _, _ => false

/-- Go `float64` keys: every one can be hashed. -/
instance goKeyFloat64 : GoKey Float64 where
  eq := Float64.eq
  hashable _ := true
  eq_symm a b := by
    cases a <;> cases b <;> simp only [Float64.eq]
    rename_i x y
    by_cases h : x = y
    · subst h
      rfl
    · have h1 : ¬ y = x := fun h1 => h h1.symm
      simp [h, h1]
  eq_trans a b c h1 h2 := by
    cases a <;> cases b <;> cases c <;> simp_all [Float64.eq]

/-- A Go `any` as a key: a string, or a slice of integers, which cannot be
hashed. -/
inductive AnyKey where
  | str (s : String)
  | slice (xs : List Int)
deriving DecidableEq

/-- Go's `==` on the values of `AnyKey` that can be hashed. -/
def AnyKey.eq : AnyKey → AnyKey → Bool
  | AnyKey.str a, AnyKey.str b => decide (a = b)
  | _, _ => false

/-- Go `any` keys: a key that holds a slice cannot be hashed. -/
instance goKeyAny : GoKey AnyKey where
  eq := AnyKey.eq
  hashable k := match k with
    | AnyKey.str _ => true
    | AnyKey.slice _ => false
  eq_symm a b := by
    cases a <;> cases b <;> simp only [AnyKey.eq]
    rename_i x y
    by_cases h : x = y
    · subst h
      rfl
    · have h1 : ¬ y = x := fun h1 => h h1.symm
      simp [h, h1]
  eq_trans a b c h1 h2 := by
    cases a <;> cases b <;> cases c <;> simp_all [AnyKey.eq]


/-! ## The transitions, one by one -/

/-- The transitions of `step` as a relation, one constructor for each way an
event can happen. -/
inductive Step {K V : Type} [DecidableEq K] [GoKey K] [DecidableEq V] :
    State K V → Event K V → State K V → Prop where
  | recvCrash (s : State K V) (kvp : KeyValuePair K V) (hpc : s.pc = PC.select)
      (hh : GoKey.hashable kvp.Key = false) :
      Step s (Event.recv kvp) { s with pc := PC.crashed }
  | recvKnown (s : State K V) (kvp : KeyValuePair K V) (hpc : s.pc = PC.select)
      (hh : GoKey.hashable kvp.Key = true)
      (hk : (mapGet s.fanOutMap kvp.Key).isSome = true) :
      Step s (Event.recv kvp) { s with pc := PC.forward kvp }
  | recvNew (s : State K V) (kvp : KeyValuePair K V) (hpc : s.pc = PC.select)
      (hh : GoKey.hashable kvp.Key = true)
      (hk : mapGet s.fanOutMap kvp.Key = none) :
      Step s (Event.recv kvp)
        { s with
          fanOutMap := mapSet s.fanOutMap kvp.Key ⟨s.chanID, some s.allocated⟩
          allocated := s.allocated + 1
          chanID := s.chanID + 1
          pc := PC.announce kvp }
  | inputClosed (s : State K V) (hpc : s.pc = PC.select) :
      Step s Event.inputClosed { s with pc := PC.shutdown (s.fanOutMap.map Prod.snd) }
  | cancelled (s : State K V) (hpc : s.pc = PC.select) :
      Step s Event.cancelled { s with pc := PC.shutdown (s.fanOutMap.map Prod.snd) }
  | announce (s : State K V) (kvp : KeyValuePair K V) (hpc : s.pc = PC.announce kvp)
      (hopen : s.fanOutChClosed = false) :
      Step s (Event.announce (mapIndex s.fanOutMap kvp.Key)) { s with pc := PC.forward kvp }
  | announcePanic (s : State K V) (kvp : KeyValuePair K V) (hpc : s.pc = PC.announce kvp)
      (hclosed : s.fanOutChClosed = true) :
      Step s Event.panic { s with pc := PC.panicked }
  | send (s : State K V) (kvp : KeyValuePair K V) (ch : ChanRef) (hpc : s.pc = PC.forward kvp)
      (hch : (mapIndex s.fanOutMap kvp.Key).Chan = some ch) (hopen : ch ∉ s.closed) :
      Step s (Event.send ch kvp) { s with pc := PC.select }
  | sendPanic (s : State K V) (kvp : KeyValuePair K V) (ch : ChanRef)
      (hpc : s.pc = PC.forward kvp)
      (hch : (mapIndex s.fanOutMap kvp.Key).Chan = some ch) (hclosed : ch ∈ s.closed) :
      Step s Event.panic { s with pc := PC.panicked }
  | closeChan (s : State K V) (rest : List IdentifiableChan) (ic : IdentifiableChan)
      (ch : ChanRef) (hpc : s.pc = PC.shutdown rest) (hic : ic ∈ rest)
      (hch : ic.Chan = some ch) (hopen : ch ∉ s.closed) :
      Step s (Event.closeChan ch)
        { s with closed := ch :: s.closed, pc := PC.shutdown (rest.erase ic) }
  | closeFanOutCh (s : State K V) (hpc : s.pc = PC.shutdown [])
      (hopen : s.fanOutChClosed = false) :
      Step s Event.closeFanOutCh { s with fanOutChClosed := true, pc := PC.done }
  | closePanic (s : State K V) (rest : List IdentifiableChan) (hpc : s.pc = PC.shutdown rest)
      (hbad : (∃ ic ∈ rest, closePanics s.closed ic = true) ∨
        (rest = [] ∧ s.fanOutChClosed = true)) :
      Step s Event.panic { s with pc := PC.panicked }

/-- The `IdentifiableChan` built at line 40 around the channel with serial
number `i`, in a run from the initial state. -/
def chanOfSerial (i : Nat) : IdentifiableChan := ⟨i + 1, some i⟩

/-- The dispatcher will never be at the `select` again: it has crashed, or it
is in the processing step of a pair whose key is not `==` to itself, which no
lookup finds. -/
def stalled {K V : Type} [GoKey K] (s : State K V) : Bool :=
  match s.pc with
  | PC.announce kvp => !GoKey.eq kvp.Key kvp.Key
  | PC.forward kvp => !GoKey.eq kvp.Key kvp.Key
  | PC.crashed => true
  | _ => false

/-- What holds of the channels at each program counter, in a run from the
initial state. -/
def PCInv {K V : Type} [GoKey K] (s : State K V) : Prop :=
  match s.pc with
  | PC.select => s.closed = [] ∧ s.fanOutChClosed = false
  | PC.announce kvp =>
    s.closed = [] ∧ s.fanOutChClosed = false ∧
      (GoKey.eq kvp.Key kvp.Key = true → (mapGet s.fanOutMap kvp.Key).isSome = true)
  | PC.forward kvp =>
    s.closed = [] ∧ s.fanOutChClosed = false ∧
      (GoKey.eq kvp.Key kvp.Key = true → (mapGet s.fanOutMap kvp.Key).isSome = true)
  | PC.shutdown rest =>
    s.fanOutChClosed = false ∧
      ∃ pending : List ChanRef, rest = pending.map chanOfSerial ∧
        List.Perm (pending ++ s.closed) (List.range s.allocated)
  | PC.done => s.fanOutChClosed = true ∧ List.Perm s.closed (List.range s.allocated)
  | PC.panicked => False
  | PC.crashed => s.closed = [] ∧ s.fanOutChClosed = false

/-- No key of the list is `==` to a later one, and every key but the last is
`==` to itself. -/
def KeysApart {K : Type} [GoKey K] (keys : List K) : Prop :=
  keys.Pairwise (fun a b => GoKey.eq a b = false ∧ GoKey.eq a a = true)

/-- The invariant of the states of a run from the initial state. -/
def WF {K V : Type} [GoKey K] (s : State K V) : Prop :=
  s.fanOutMap.map Prod.snd = (List.range s.allocated).map chanOfSerial ∧
    s.chanID = s.allocated + 1 ∧ KeysApart (s.fanOutMap.map Prod.fst) ∧ PCInv s ∧
    (stalled s = false → ∀ k ∈ s.fanOutMap.map Prod.fst, GoKey.eq k k = true)

/-- The value whose send on `fanOutCh` (line 42) is still to complete. -/
def pendingAnnounce {K V : Type} [GoKey K] (s : State K V) : List IdentifiableChan :=
  match s.pc with
  | PC.announce kvp => [mapIndex s.fanOutMap kvp.Key]
  | _ => []

/-- The pair received from `inChan` whose send on its output channel (line 44)
is still to complete. -/
def pendingSend {K V : Type} (s : State K V) : List (KeyValuePair K V) :=
  match s.pc with
  | PC.announce kvp => [kvp]
  | PC.forward kvp => [kvp]
  | _ => []

/-- The channel `m[kvp.Key].Chan` that line 44 sends `kvp` on, with `kvp`. -/
def routeOf {K V : Type} [GoKey K] (m : GoMap K) (kvp : KeyValuePair K V) :
    Option ChanRef × KeyValuePair K V :=
  ((mapIndex m kvp.Key).Chan, kvp)

/-- An event of the processing loop of lines 32-49 that does not leave it. -/
def isLoopEvent {K V : Type} : Event K V → Bool
  | Event.recv _ => true
  | Event.announce _ => true
  | Event.send _ _ => true
  | _ => false

/-- The events of a run relate to the registry as follows, as long as the
dispatcher has not stalled: the keys of `fanOutMap` are the keys received, in
order of first appearance; the values of `fanOutMap` are the values announced,
with the one whose announcement is pending; every pair received has been sent
on the channel of its key, or its send is pending; and every key received is
`==` to itself. -/
def Reg {K V : Type} [GoKey K] (tr : List (Event K V)) (s : State K V) : Prop :=
  stalled s = false →
    s.fanOutMap.map Prod.fst = firstSeen (keysOf (received tr)) ∧
    announced tr ++ pendingAnnounce s = s.fanOutMap.map Prod.snd ∧
    (sent tr).map (fun p => (some p.1, p.2)) ++ (pendingSend s).map (routeOf s.fanOutMap) =
      (received tr).map (routeOf s.fanOutMap) ∧
    ∀ kvp ∈ received tr, GoKey.eq kvp.Key kvp.Key = true

/-- A run that has left the processing loop consists of a run `body` of the
loop that ends at the `select`, the event `stop` that left the loop, and the
closes made so far; `s0` is the state the loop was left in. -/
def LeftLoop {K V : Type} [DecidableEq K] [GoKey K] [DecidableEq V] (tr : List (Event K V))
    (s : State K V) (tail : List (Event K V)) : Prop :=
  ∃ body stop s0, tr = body ++ stop :: (s.closed.reverse.map Event.closeChan ++ tail) ∧
    (stop = Event.inputClosed ∨ stop = Event.cancelled) ∧
    body.all isLoopEvent = true ∧
    exec (init K V) body = some s0 ∧ s0.pc = PC.select ∧
    s0.fanOutMap = s.fanOutMap ∧ s0.allocated = s.allocated ∧ s0.chanID = s.chanID

/-- The form of the events of a run, by program counter. -/
def Shape {K V : Type} [DecidableEq K] [GoKey K] [DecidableEq V] (tr : List (Event K V))
    (s : State K V) : Prop :=
  match s.pc with
  | PC.shutdown _ => LeftLoop tr s []
  | PC.done => LeftLoop tr s [Event.closeFanOutCh]
  | PC.panicked => True
  | _ => tr.all isLoopEvent = true

/-- A run on the input `[(A,1), (B,2), (A,3)]` that ends with the input
closed; `range` visits the entry of `B` before the entry of `A`. -/
def runABA : List (Event String Int) :=
  [Event.recv ⟨"A", 1⟩, Event.announce ⟨1, some 0⟩, Event.send 0 ⟨"A", 1⟩,
   Event.recv ⟨"B", 2⟩, Event.announce ⟨2, some 1⟩, Event.send 1 ⟨"B", 2⟩,
   Event.recv ⟨"A", 3⟩, Event.send 0 ⟨"A", 3⟩,
   Event.inputClosed, Event.closeChan 1, Event.closeChan 0, Event.closeFanOutCh]

/-- The state `runABA` ends in. -/
def endABA : State String Int :=
  { fanOutMap := [("A", ⟨1, some 0⟩), ("B", ⟨2, some 1⟩)], chanID := 3, allocated := 2,
    closed := [0, 1], fanOutChClosed := true, pc := PC.done }

/-- The run on an input that is closed at once. -/
def runEmpty : List (Event String Int) := [Event.inputClosed, Event.closeFanOutCh]

/-- The state `runEmpty` ends in. -/
def endEmpty : State String Int :=
  { fanOutMap := [], chanID := 1, allocated := 0, closed := [], fanOutChClosed := true,
    pc := PC.done }

/-- The run on the input `[(A,1)]` in which the `select` takes the cancellation
before the pair. -/
def cancelEarly : List (Event String Int) := [Event.cancelled, Event.closeFanOutCh]

/-- The run on the input `[(A,1)]` in which the `select` takes the pair first
and the cancellation next. -/
def cancelLate : List (Event String Int) :=
  [Event.recv ⟨"A", 1⟩, Event.announce ⟨1, some 0⟩, Event.send 0 ⟨"A", 1⟩,
   Event.cancelled, Event.closeChan 0, Event.closeFanOutCh]

/-- The state `cancelLate` ends in. -/
def endCancelLate : State String Int :=
  { fanOutMap := [("A", ⟨1, some 0⟩)], chanID := 2, allocated := 1, closed := [0],
    fanOutChClosed := true, pc := PC.done }

/-- The state after the pair `(A,1)` has been received and before a consumer
has received the announcement of its channel. -/
def blockedA : State String Int :=
  { fanOutMap := [("A", ⟨1, some 0⟩)], chanID := 2, allocated := 1, closed := [],
    fanOutChClosed := false, pc := PC.announce ⟨"A", 1⟩ }

/-- The run on the `float64` input `[(NaN,1)]` as far as it can go. -/
def runNaN : List (Event Float64 Int) :=
  [Event.recv ⟨Float64.NaN, 1⟩, Event.announce ⟨0, none⟩]

/-- The state after the pair `(NaN,1)` has been received: lines 40-41 have
run and the dispatcher is at the send of line 42. -/
def afterNaN : State Float64 Int :=
  { fanOutMap := [(Float64.NaN, ⟨1, some 0⟩)], chanID := 2, allocated := 1, closed := [],
    fanOutChClosed := false, pc := PC.announce ⟨Float64.NaN, 1⟩ }

/-- The state `runNaN` ends in: the dispatcher is at the send of line 44. -/
def stuckNaN : State Float64 Int :=
  { fanOutMap := [(Float64.NaN, ⟨1, some 0⟩)], chanID := 2, allocated := 1, closed := [],
    fanOutChClosed := false, pc := PC.forward ⟨Float64.NaN, 1⟩ }

/-- The state after a pair whose key holds a slice has been received on an
input of key type `any`. -/
def crashedSlice : State AnyKey Int :=
  { fanOutMap := [], chanID := 1, allocated := 0, closed := [], fanOutChClosed := false,
    pc := PC.crashed }

section Basics

variable {K V : Type} [DecidableEq K] [GoKey K] [DecidableEq V]

theorem step_sound {s s' : State K V} {e : Event K V} (h : step s e = some s') :
    Step s e s' := by
  unfold step at h
  split at h
  · rename_i hpc
    cases e <;> simp only [stepSelect, reduceCtorEq] at h
    · rename_i kvp
      split at h
      · rename_i hh
        cases h
        exact Step.recvCrash s kvp hpc hh
      · rename_i hh
        split at h
        · rename_i hk
          cases h
          exact Step.recvKnown s kvp hpc (by simpa using hh) hk
        · rename_i hk
          cases h
          exact Step.recvNew s kvp hpc (by simpa using hh) (by simpa using hk)
    · cases h
      exact Step.inputClosed s hpc
    · cases h
      exact Step.cancelled s hpc
  · rename_i kvp hpc
    cases e <;> simp only [stepAnnounce, reduceCtorEq] at h
    · rename_i ic
      split at h
      · cases h
      · rename_i hopen
        split at h
        · rename_i hic
          cases h
          subst hic
          exact Step.announce s kvp hpc (by simpa using hopen)
        · cases h
    · split at h
      · rename_i hcl
        cases h
        exact Step.announcePanic s kvp hpc hcl
      · cases h
  · rename_i kvp hpc
    cases e <;> simp only [stepForward, reduceCtorEq] at h
    · rename_i ch kvp'
      split at h
      · rename_i hc
        cases h
        obtain ⟨h1, h2, h3⟩ := hc
        subst h2
        exact Step.send s kvp' ch hpc h1 h3
      · cases h
    · split at h
      · cases h
      · rename_i ch hch
        split at h
        · rename_i hcl
          cases h
          exact Step.sendPanic s kvp ch hpc hch hcl
        · cases h
  · rename_i rest hpc
    cases e <;> simp only [stepShutdown, reduceCtorEq] at h
    · rename_i ch
      split at h
      · cases h
      · rename_i ic hfind
        split at h
        · cases h
        · rename_i hopen
          cases h
          have h1 := List.mem_of_find?_eq_some hfind
          have h2 := List.find?_some hfind
          exact Step.closeChan s rest ic ch hpc h1 (by simpa using h2) hopen
    · split at h
      · rename_i hc
        cases h
        obtain ⟨h1, h2⟩ := hc
        subst h1
        exact Step.closeFanOutCh s hpc h2
      · cases h
    · split at h
      · rename_i hc
        cases h
        refine Step.closePanic s rest hpc ?_
        rcases hc with hc | hc
        · left
          simpa using hc
        · right
          exact hc
      · cases h
  · cases h
  · cases h
  · cases h

theorem exec_append (s : State K V) (a b : List (Event K V)) :
    exec s (a ++ b) = (exec s a).bind (fun s' => exec s' b) := by
  induction a generalizing s with
  | nil => simp [exec]
  | cons e a ih =>
    simp only [List.cons_append, exec]
    cases step s e with
    | none => simp
    | some s1 => simpa using ih s1

theorem exec_snoc {s s' : State K V} {tr : List (Event K V)} {e : Event K V}
    (h : exec s (tr ++ [e]) = some s') :
    ∃ s1, exec s tr = some s1 ∧ Step s1 e s' := by
  rw [exec_append] at h
  cases h1 : exec s tr with
  | none => simp [h1] at h
  | some s1 =>
    simp only [h1, Option.some_bind, exec] at h
    cases h2 : step s1 e with
    | none => simp [h2] at h
    | some s2 =>
      simp only [h2, Option.some_bind, Option.some.injEq] at h
      subst h
      exact ⟨s1, rfl, step_sound h2⟩

/-- Induction over the runs from the initial state. -/
theorem run_induction (P : List (Event K V) → State K V → Prop)
    (h0 : P [] (init K V))
    (hstep : ∀ tr s e s', exec (init K V) tr = some s → P tr s → Step s e s' →
      P (tr ++ [e]) s') :
    ∀ tr s, exec (init K V) tr = some s → P tr s := by
  intro tr
  induction tr using List.reverseRecOn with
  | nil =>
    intro s h
    simp only [exec, Option.some.injEq] at h
    subst h
    exact h0
  | append_singleton tr e ih =>
    intro s h
    obtain ⟨s1, h1, h2⟩ := exec_snoc h
    exact hstep tr s1 e s h1 (ih s1 h1) h2

theorem received_append (a b : List (Event K V)) :
    received (a ++ b) = received a ++ received b := by
  induction a with
  | nil => rfl
  | cons e a ih => cases e <;> simp [received, ih]

theorem announced_append (a b : List (Event K V)) :
    announced (a ++ b) = announced a ++ announced b := by
  induction a with
  | nil => rfl
  | cons e a ih => cases e <;> simp [announced, ih]

theorem sent_append (a b : List (Event K V)) :
    sent (a ++ b) = sent a ++ sent b := by
  induction a with
  | nil => rfl
  | cons e a ih => cases e <;> simp [sent, ih]

theorem closedChans_append (a b : List (Event K V)) :
    closedChans (a ++ b) = closedChans a ++ closedChans b := by
  induction a with
  | nil => rfl
  | cons e a ih => cases e <;> simp [closedChans, ih]

/-! ### Keys under `==` -/

theorem eq_self_of_eq_left {a b : K} (h : GoKey.eq a b = true) : GoKey.eq a a = true :=
  GoKey.eq_trans a b a h (by rw [GoKey.eq_symm]; exact h)

theorem eq_self_of_eq_right {a b : K} (h : GoKey.eq a b = true) : GoKey.eq b b = true :=
  GoKey.eq_trans b a b (by rw [GoKey.eq_symm]; exact h) h

theorem eq_congr_right {a b : K} (h : GoKey.eq a b = true) (c : K) :
    GoKey.eq c a = GoKey.eq c b := by
  cases h1 : GoKey.eq c a with
  | true => exact (GoKey.eq_trans c a b h1 h).symm
  | false =>
    cases h2 : GoKey.eq c b with
    | false => rfl
    | true =>
      have := GoKey.eq_trans c b a h2 (by rw [GoKey.eq_symm]; exact h)
      rw [h1] at this
      cases this

theorem keyIn_nil (k : K) : keyIn k ([] : List K) = false := rfl

theorem keyIn_append (k : K) (a b : List K) : keyIn k (a ++ b) = (keyIn k a || keyIn k b) := by
  simp [keyIn, List.any_append]

theorem keyIn_singleton (k a : K) : keyIn k [a] = GoKey.eq a k := by
  simp [keyIn]

theorem keyIn_of_mem {k : K} {l : List K} (hmem : k ∈ l) (hk : GoKey.eq k k = true) :
    keyIn k l = true := by
  simp only [keyIn, List.any_eq_true]
  exact ⟨k, hmem, hk⟩

theorem keyIn_congr {a b : K} (h : GoKey.eq a b = true) (l : List K) :
    keyIn a l = keyIn b l := by
  induction l with
  | nil => rfl
  | cons c l ih =>
    simp only [keyIn, List.any_cons] at ih ⊢
    rw [ih, eq_congr_right h c]

theorem firstSeen_snoc (l : List K) (k : K) :
    firstSeen (l ++ [k]) =
      if keyIn k (firstSeen l) then firstSeen l else firstSeen l ++ [k] := by
  simp [firstSeen, List.foldl_append]

theorem keyIn_firstSeen (l : List K) (k : K) : keyIn k (firstSeen l) = keyIn k l := by
  induction l using List.reverseRecOn with
  | nil => rfl
  | append_singleton l a ih =>
    rw [firstSeen_snoc, keyIn_append, keyIn_singleton]
    by_cases h : keyIn a (firstSeen l) = true
    · simp only [h, if_true, ih]
      cases hak : GoKey.eq a k with
      | false => simp
      | true =>
        rw [← ih, ← keyIn_congr hak, h]
        rfl
    · rw [Bool.not_eq_true] at h
      simp only [h, Bool.false_eq_true, if_false, keyIn_append, keyIn_singleton, ih]

theorem firstSeen_length_le (l : List K) : (firstSeen l).length ≤ l.length := by
  induction l using List.reverseRecOn with
  | nil => simp [firstSeen]
  | append_singleton l a ih =>
    rw [firstSeen_snoc]
    by_cases h : keyIn a (firstSeen l) = true
    · simp only [h, if_true, List.length_append, List.length_singleton]
      omega
    · rw [Bool.not_eq_true] at h
      simp only [h, Bool.false_eq_true, if_false, List.length_append, List.length_singleton]
      omega

/-! ### The map operations -/

theorem mapGet_isSome (m : GoMap K) (k : K) :
    (mapGet m k).isSome = keyIn k (m.map Prod.fst) := by
  induction m with
  | nil => rfl
  | cons e m ih =>
    obtain ⟨k', v⟩ := e
    by_cases h : GoKey.eq k' k = true
    · simp [mapGet, keyIn, h]
    · simp only [keyIn, List.map_cons, List.any_cons] at ih ⊢
      simp [mapGet, h, ih]

theorem mapGet_eq_none_iff (m : GoMap K) (k : K) :
    mapGet m k = none ↔ keyIn k (m.map Prod.fst) = false := by
  rw [← mapGet_isSome]
  cases mapGet m k <;> simp

theorem mapGet_none_of_not_self (m : GoMap K) (k : K) (h : GoKey.eq k k = false) :
    mapGet m k = none := by
  induction m with
  | nil => rfl
  | cons e m ih =>
    obtain ⟨k', v⟩ := e
    have hk : GoKey.eq k' k = false := by
      cases hk : GoKey.eq k' k with
      | false => rfl
      | true =>
        rw [eq_self_of_eq_right hk] at h
        cases h
    simp [mapGet, hk, ih]

theorem mapGet_congr (m : GoMap K) {a b : K} (h : GoKey.eq a b = true) :
    mapGet m a = mapGet m b := by
  induction m with
  | nil => rfl
  | cons e m ih =>
    obtain ⟨k', v⟩ := e
    simp only [mapGet, eq_congr_right h k', ih]

theorem mapSet_of_absent (m : GoMap K) (k : K) (v : IdentifiableChan)
    (h : mapGet m k = none) : mapSet m k v = m ++ [(k, v)] := by
  induction m with
  | nil => rfl
  | cons e m ih =>
    obtain ⟨k', v'⟩ := e
    by_cases hk : GoKey.eq k' k = true
    · simp [mapGet, hk] at h
    · simp only [mapGet, hk, if_false] at h
      simp [mapSet, hk, ih h]

theorem mapGet_append_of_present (m m' : GoMap K) (k : K)
    (h : (mapGet m k).isSome = true) : mapGet (m ++ m') k = mapGet m k := by
  induction m with
  | nil => simp [mapGet] at h
  | cons e m ih =>
    obtain ⟨k', v'⟩ := e
    by_cases hk : GoKey.eq k' k = true
    · simp [mapGet, hk]
    · simp only [mapGet, hk, if_false] at h
      simp [mapGet, hk, ih h]

theorem mapGet_append_of_absent (m m' : GoMap K) (k : K)
    (h : mapGet m k = none) : mapGet (m ++ m') k = mapGet m' k := by
  induction m with
  | nil => rfl
  | cons e m ih =>
    obtain ⟨k', v'⟩ := e
    by_cases hk : GoKey.eq k' k = true
    · simp [mapGet, hk] at h
    · simp only [mapGet, hk, if_false] at h
      simp [mapGet, hk, ih h]

theorem mapGet_mem (m : GoMap K) (k : K) (v : IdentifiableChan)
    (h : mapGet m k = some v) : ∃ k', (k', v) ∈ m ∧ GoKey.eq k' k = true := by
  induction m with
  | nil => simp [mapGet] at h
  | cons e m ih =>
    obtain ⟨k', v'⟩ := e
    by_cases hk : GoKey.eq k' k = true
    · simp only [mapGet, hk, if_true, Option.some.injEq] at h
      subst h
      exact ⟨k', List.mem_cons_self _ _, hk⟩
    · simp only [mapGet, hk, if_false] at h
      obtain ⟨k1, h1, h2⟩ := ih h
      exact ⟨k1, List.mem_cons_of_mem _ h1, h2⟩

theorem mapGet_of_mem (m : GoMap K) (k : K) (v : IdentifiableChan)
    (hnd : KeysApart (m.map Prod.fst)) (hk : GoKey.eq k k = true) (h : (k, v) ∈ m) :
    mapGet m k = some v := by
  induction m with
  | nil => simp at h
  | cons e m ih =>
    obtain ⟨k', v'⟩ := e
    simp only [KeysApart, List.map_cons, List.pairwise_cons] at hnd
    rcases List.mem_cons.mp h with h1 | h1
    · cases h1
      simp [mapGet, hk]
    · have hk' : GoKey.eq k' k = false :=
        (hnd.1 k (List.mem_map_of_mem Prod.fst h1)).1
      simp only [mapGet, hk', Bool.false_eq_true, if_false]
      exact ih hnd.2 h1

theorem keysApart_nodup {keys : List K} (h : KeysApart keys) : keys.Nodup := by
  refine List.Pairwise.imp ?_ h
  intro a b hab heq
  subst heq
  rw [hab.2] at hab
  cases hab.1

theorem keysApart_snoc {keys : List K} {k : K} (h : KeysApart keys)
    (hall : ∀ a ∈ keys, GoKey.eq a a = true) (hk : keyIn k keys = false) :
    KeysApart (keys ++ [k]) := by
  simp only [KeysApart, List.pairwise_append, List.pairwise_cons, List.mem_singleton]
  refine ⟨h, ⟨by simp, List.Pairwise.nil⟩, ?_⟩
  intro a ha b hb
  subst hb
  refine ⟨?_, hall a ha⟩
  cases hab : GoKey.eq a b with
  | false => rfl
  | true =>
    have : keyIn b keys = true := by
      simp only [keyIn, List.any_eq_true]
      exact ⟨a, ha, hab⟩
    rw [hk] at this
    cases this

/-! ### The state invariant -/

theorem chanOfSerial_injective : Function.Injective chanOfSerial := by
  intro a b h
  simp only [chanOfSerial, IdentifiableChan.mk.injEq] at h
  exact Option.some.inj h.2

theorem wf_init : WF (init K V) := by
  simp [WF, init, PCInv, KeysApart]

theorem self_eq_of_chan {m : GoMap K} {k : K} {c : ChanRef}
    (h : (mapIndex m k).Chan = some c) : GoKey.eq k k = true := by
  cases hk : GoKey.eq k k with
  | true => rfl
  | false =>
    rw [mapIndex, mapGet_none_of_not_self m k hk] at h
    simp [zeroChan] at h

theorem isSome_of_chan {m : GoMap K} {k : K} {c : ChanRef}
    (h : (mapIndex m k).Chan = some c) : (mapGet m k).isSome = true := by
  cases hg : mapGet m k with
  | some v => rfl
  | none =>
    rw [mapIndex, hg] at h
    simp [zeroChan] at h

theorem wf_chan {s : State K V} (hwf : WF s) (k : K) (h : (mapGet s.fanOutMap k).isSome = true) :
    ∃ i, i < s.allocated ∧ mapGet s.fanOutMap k = some (chanOfSerial i) := by
  cases hg : mapGet s.fanOutMap k with
  | none => simp [hg] at h
  | some v =>
    obtain ⟨k', hmem, _⟩ := mapGet_mem _ _ _ hg
    have h1 : v ∈ s.fanOutMap.map Prod.snd := List.mem_map_of_mem Prod.snd hmem
    rw [hwf.1] at h1
    obtain ⟨i, hi, rfl⟩ := List.mem_map.mp h1
    exact ⟨i, List.mem_range.mp hi, rfl⟩

theorem wf_step {s s' : State K V} {e : Event K V} (hwf : WF s) (h : Step s e s') : WF s' := by
  obtain ⟨hvals, hid, hnd, hpc, hrefl⟩ := hwf
  cases h with
  | recvCrash kvp hsel hh =>
    simp only [PCInv, hsel] at hpc
    refine ⟨hvals, hid, hnd, by simpa [PCInv] using hpc, ?_⟩
    intro hst
    simp [stalled] at hst
  | recvKnown kvp hsel hh hk =>
    simp only [PCInv, hsel] at hpc
    exact ⟨hvals, hid, hnd, by simp [PCInv, hpc.1, hpc.2, hk],
      fun _ => hrefl (by simp [stalled, hsel])⟩
  | recvNew kvp hsel hh hk =>
    simp only [PCInv, hsel] at hpc
    have hall := hrefl (by simp [stalled, hsel])
    have hset := mapSet_of_absent s.fanOutMap kvp.Key ⟨s.chanID, some s.allocated⟩ hk
    refine ⟨?_, ?_, ?_, ?_, ?_⟩
    · show List.map Prod.snd (mapSet s.fanOutMap kvp.Key _) = _
      rw [hset]
      simp [hvals, List.range_succ, chanOfSerial, hid]
    · simp [hid]
    · show KeysApart (List.map Prod.fst (mapSet s.fanOutMap kvp.Key _))
      rw [hset, List.map_append]
      exact keysApart_snoc hnd hall ((mapGet_eq_none_iff _ _).mp hk)
    · simp only [PCInv, hpc.1, hpc.2, hset, true_and]
      intro hkk
      rw [mapGet_append_of_absent _ _ _ hk]
      simp [mapGet, hkk]
    · intro hst
      have hkk : GoKey.eq kvp.Key kvp.Key = true := by simpa [stalled] using hst
      show ∀ k ∈ List.map Prod.fst (mapSet s.fanOutMap kvp.Key _), GoKey.eq k k = true
      rw [hset, List.map_append]
      intro k hk1
      rcases List.mem_append.mp hk1 with hk1 | hk1
      · exact hall k hk1
      · simp only [List.map_cons, List.map_nil, List.mem_singleton] at hk1
        rw [hk1]
        exact hkk
  | inputClosed hsel =>
    simp only [PCInv, hsel] at hpc
    refine ⟨hvals, hid, hnd, ?_, fun _ => hrefl (by simp [stalled, hsel])⟩
    simp only [PCInv, hpc.2, true_and]
    exact ⟨List.range s.allocated, hvals, by simp [hpc.1]⟩
  | cancelled hsel =>
    simp only [PCInv, hsel] at hpc
    refine ⟨hvals, hid, hnd, ?_, fun _ => hrefl (by simp [stalled, hsel])⟩
    simp only [PCInv, hpc.2, true_and]
    exact ⟨List.range s.allocated, hvals, by simp [hpc.1]⟩
  | announce kvp hann hopen =>
    simp only [PCInv, hann] at hpc
    refine ⟨hvals, hid, hnd, by simpa [PCInv] using hpc, ?_⟩
    intro hst
    exact hrefl (by simpa [stalled, hann] using hst)
  | announcePanic kvp hann hclosed =>
    simp only [PCInv, hann] at hpc
    simp [hpc.2.1] at hclosed
  | send kvp ch hfwd hch hopen =>
    simp only [PCInv, hfwd] at hpc
    refine ⟨hvals, hid, hnd, by simp [PCInv, hpc.1, hpc.2.1], fun _ => hrefl ?_⟩
    simp [stalled, hfwd, self_eq_of_chan hch]
  | sendPanic kvp ch hfwd hch hclosed =>
    simp only [PCInv, hfwd] at hpc
    simp [hpc.1] at hclosed
  | closeChan rest ic ch hsh hic hch hopen =>
    simp only [PCInv, hsh] at hpc
    obtain ⟨hfo, pending, hrest, hperm⟩ := hpc
    refine ⟨hvals, hid, hnd, ?_, fun _ => hrefl (by simp [stalled, hsh])⟩
    simp only [PCInv, hfo, true_and]
    subst hrest
    obtain ⟨i, hi, rfl⟩ := List.mem_map.mp hic
    have hich : i = ch := by simpa [chanOfSerial] using hch
    subst hich
    refine ⟨pending.erase i, (List.map_erase chanOfSerial_injective _).symm, ?_⟩
    have h1 : List.Perm (pending.erase i ++ i :: s.closed) (i :: pending.erase i ++ s.closed) := by
      simp
    refine h1.trans (List.Perm.trans ?_ hperm)
    exact List.Perm.append_right _ (List.perm_cons_erase hi).symm
  | closeFanOutCh hsh hopen =>
    simp only [PCInv, hsh] at hpc
    obtain ⟨_, pending, hrest, hperm⟩ := hpc
    refine ⟨hvals, hid, hnd, ?_, fun _ => hrefl (by simp [stalled, hsh])⟩
    have hp : pending = [] := by
      cases pending with
      | nil => rfl
      | cons a l => simp at hrest
    subst hp
    simpa [PCInv] using hperm
  | closePanic rest hsh hbad =>
    simp only [PCInv, hsh] at hpc
    obtain ⟨hfo, pending, hrest, hperm⟩ := hpc
    exfalso
    rcases hbad with ⟨ic, hic, hp⟩ | ⟨_, hc⟩
    · subst hrest
      obtain ⟨i, hi, rfl⟩ := List.mem_map.mp hic
      simp only [closePanics, chanOfSerial, decide_eq_true_eq] at hp
      have hndp : (pending ++ s.closed).Nodup := hperm.nodup_iff.mpr (List.nodup_range _)
      exact (List.disjoint_of_nodup_append hndp) hi hp
    · simp [hfo] at hc

/-- Every state of a run from the initial state satisfies the invariant. -/
theorem wf_of_exec {tr : List (Event K V)} {s : State K V}
    (h : exec (init K V) tr = some s) : WF s :=
  run_induction (fun _ s => WF s) wf_init (fun _ _ _ _ _ hwf hst => wf_step hwf hst) tr s h

theorem pcInv_of_exec {tr : List (Event K V)} {s : State K V}
    (h : exec (init K V) tr = some s) : PCInv s := (wf_of_exec h).2.2.2.1

/-! ### The registry and the events of a run -/

theorem keysOf_append (a b : List (KeyValuePair K V)) : keysOf (a ++ b) = keysOf a ++ keysOf b := by
  simp [keysOf]

theorem reg_init : Reg ([] : List (Event K V)) (init K V) := by
  intro _
  simp [init, received, announced, sent, pendingAnnounce, pendingSend, firstSeen, keysOf]

theorem reg_tail {tr : List (Event K V)} {s s' : State K V} {e : Event K V}
    (hreg : Reg tr s) (hs : stalled s = false)
    (hrec : received (tr ++ [e]) = received tr) (hann : announced (tr ++ [e]) = announced tr)
    (hsent : sent (tr ++ [e]) = sent tr) (hmap : s'.fanOutMap = s.fanOutMap)
    (hpa : pendingAnnounce s' = pendingAnnounce s) (hps : pendingSend s' = pendingSend s) :
    Reg (tr ++ [e]) s' := by
  intro _
  rw [hrec, hann, hsent, hmap, hpa, hps]
  exact hreg hs

theorem reg_step {tr : List (Event K V)} {s s' : State K V} {e : Event K V}
    (hwf : WF s) (hreg : Reg tr s) (h : Step s e s') : Reg (tr ++ [e]) s' := by
  cases h with
  | recvCrash kvp hsel hh =>
    intro hst
    simp [stalled] at hst
  | recvKnown kvp hsel hh hk =>
    intro hst
    have hkk : GoKey.eq kvp.Key kvp.Key = true := by simpa [stalled] using hst
    obtain ⟨hkeys, hann, hsent, hself⟩ := hreg (by simp [stalled, hsel])
    simp only [pendingAnnounce, pendingSend, hsel, List.append_nil, List.map_nil] at hann hsent
    have hmem : keyIn kvp.Key (firstSeen (keysOf (received tr))) = true := by
      rw [← hkeys, ← mapGet_isSome]
      exact hk
    refine ⟨?_, ?_, ?_, ?_⟩
    · simp only [received_append, received, keysOf_append, keysOf, List.map_cons, List.map_nil,
        List.map_append, firstSeen_snoc]
      simp only [keysOf] at hmem hkeys
      simp [hkeys, hmem]
    · simpa [announced_append, announced, pendingAnnounce] using hann
    · simp [sent_append, sent, received_append, received, pendingSend, hsent]
    · intro x hx
      simp only [received_append, received, List.mem_append, List.mem_singleton] at hx
      rcases hx with hx | hx
      · exact hself x hx
      · rw [hx]
        exact hkk
  | recvNew kvp hsel hh hk =>
    intro hst
    have hkk : GoKey.eq kvp.Key kvp.Key = true := by simpa [stalled] using hst
    obtain ⟨hkeys, hann, hsent, hself⟩ := hreg (by simp [stalled, hsel])
    simp only [pendingAnnounce, pendingSend, hsel, List.append_nil, List.map_nil] at hann hsent
    have hset := mapSet_of_absent s.fanOutMap kvp.Key ⟨s.chanID, some s.allocated⟩ hk
    have hnmem : keyIn kvp.Key (firstSeen (keysOf (received tr))) = false := by
      rw [← hkeys]
      exact (mapGet_eq_none_iff _ _).mp hk
    have hidx : mapIndex (s.fanOutMap ++ [(kvp.Key, ⟨s.chanID, some s.allocated⟩)]) kvp.Key
        = ⟨s.chanID, some s.allocated⟩ := by
      simp [mapIndex, mapGet_append_of_absent _ _ _ hk, mapGet, hkk]
    refine ⟨?_, ?_, ?_, ?_⟩
    · show List.map Prod.fst (mapSet s.fanOutMap kvp.Key _) = _
      rw [hset]
      simp only [received_append, received, keysOf_append, firstSeen_snoc, keysOf,
        List.map_cons, List.map_nil, List.map_append]
      simp only [keysOf] at hnmem hkeys
      simp [hkeys, hnmem]
    · show announced (tr ++ [Event.recv kvp]) ++ [mapIndex (mapSet s.fanOutMap kvp.Key _) kvp.Key]
        = List.map Prod.snd (mapSet s.fanOutMap kvp.Key _)
      rw [hset, hidx]
      simp [announced_append, announced, hann]
    · show List.map (fun p => (some p.1, p.2)) (sent (tr ++ [Event.recv kvp])) ++
          List.map (routeOf (mapSet s.fanOutMap kvp.Key _)) [kvp]
        = List.map (routeOf (mapSet s.fanOutMap kvp.Key _)) (received (tr ++ [Event.recv kvp]))
      rw [hset]
      simp only [sent_append, sent, received_append, received, List.append_nil, List.map_append,
        List.map_cons, List.map_nil]
      congr 1
      rw [hsent]
      apply List.map_congr_left
      intro x hx
      have hxk : (mapGet s.fanOutMap x.Key).isSome = true := by
        rw [mapGet_isSome, hkeys, keyIn_firstSeen]
        exact keyIn_of_mem (List.mem_map_of_mem KeyValuePair.Key hx) (hself x hx)
      simp [routeOf, mapIndex, mapGet_append_of_present _ _ _ hxk]
    · intro x hx
      simp only [received_append, received, List.mem_append, List.mem_singleton] at hx
      rcases hx with hx | hx
      · exact hself x hx
      · rw [hx]
        exact hkk
  | inputClosed hsel =>
    exact reg_tail hreg (by simp [stalled, hsel]) (by simp [received_append, received])
      (by simp [announced_append, announced]) (by simp [sent_append, sent]) rfl
      (by simp [pendingAnnounce, hsel]) (by simp [pendingSend, hsel])
  | cancelled hsel =>
    exact reg_tail hreg (by simp [stalled, hsel]) (by simp [received_append, received])
      (by simp [announced_append, announced]) (by simp [sent_append, sent]) rfl
      (by simp [pendingAnnounce, hsel]) (by simp [pendingSend, hsel])
  | announce kvp hpc hopen =>
    intro hst
    have hs : stalled s = false := by simpa [stalled, hpc] using hst
    obtain ⟨hkeys, hann, hsent, hself⟩ := hreg hs
    simp only [pendingAnnounce, pendingSend, hpc] at hann hsent
    exact ⟨by simpa [received_append, received] using hkeys,
      by simpa [announced_append, announced, pendingAnnounce] using hann,
      by simpa [sent_append, sent, received_append, received, pendingSend] using hsent,
      by simpa [received_append, received] using hself⟩
  | announcePanic kvp hpc hclosed =>
    have := hwf.2.2.2.1
    simp only [PCInv, hpc] at this
    simp [this.2.1] at hclosed
  | send kvp ch hpc hch hopen =>
    intro _
    have hs : stalled s = false := by simp [stalled, hpc, self_eq_of_chan hch]
    obtain ⟨hkeys, hann, hsent, hself⟩ := hreg hs
    simp only [pendingAnnounce, pendingSend, hpc, List.append_nil] at hann hsent
    refine ⟨by simpa [received_append, received] using hkeys,
      by simpa [announced_append, announced, pendingAnnounce] using hann, ?_,
      by simpa [received_append, received] using hself⟩
    simp only [sent_append, sent, received_append, received, pendingSend, List.append_nil,
      List.map_append, List.map_cons, List.map_nil]
    rw [← hsent]
    simp [routeOf, hch]
  | sendPanic kvp ch hpc hch hclosed =>
    have := hwf.2.2.2.1
    simp only [PCInv, hpc] at this
    simp [this.1] at hclosed
  | closeChan rest ic ch hpc hic hch hopen =>
    exact reg_tail hreg (by simp [stalled, hpc]) (by simp [received_append, received])
      (by simp [announced_append, announced]) (by simp [sent_append, sent]) rfl
      (by simp [pendingAnnounce, hpc]) (by simp [pendingSend, hpc])
  | closeFanOutCh hpc hopen =>
    exact reg_tail hreg (by simp [stalled, hpc]) (by simp [received_append, received])
      (by simp [announced_append, announced]) (by simp [sent_append, sent]) rfl
      (by simp [pendingAnnounce, hpc]) (by simp [pendingSend, hpc])
  | closePanic rest hpc hbad =>
    intro hst
    exact (hreg (by simp [stalled, hpc])).elim (fun _ _ => by
      have hwf' := wf_step hwf (Step.closePanic s rest hpc hbad)
      exact (hwf'.2.2.2.1).elim)

/-- The events of every run from the initial state relate to the registry as
`Reg` says. -/
theorem reg_of_exec {tr : List (Event K V)} {s : State K V}
    (h : exec (init K V) tr = some s) : Reg tr s :=
  run_induction (fun tr s => Reg tr s) reg_init
    (fun _ _ _ _ hex hreg hst => reg_step (wf_of_exec hex) hreg hst) tr s h

/-! ### Splitting a run, and the form of its events -/

theorem exec_cons {s s' : State K V} {e : Event K V} {tr : List (Event K V)}
    (h : exec s (e :: tr) = some s') : ∃ s1, Step s e s1 ∧ exec s1 tr = some s' := by
  simp only [exec] at h
  cases h1 : step s e with
  | none => simp [h1] at h
  | some s1 =>
    simp only [h1, Option.some_bind] at h
    exact ⟨s1, step_sound h1, h⟩

theorem exec_split {s s' : State K V} {pre post : List (Event K V)} {e : Event K V}
    (h : exec s (pre ++ e :: post) = some s') :
    ∃ s1 s2, exec s pre = some s1 ∧ Step s1 e s2 ∧ exec s2 post = some s' := by
  rw [exec_append] at h
  cases h1 : exec s pre with
  | none => simp [h1] at h
  | some s1 =>
    simp only [h1, Option.some_bind] at h
    obtain ⟨s2, h2, h3⟩ := exec_cons h
    exact ⟨s1, s2, rfl, h2, h3⟩

theorem step_mapGet {s s' : State K V} {e : Event K V} (h : Step s e s') (k : K)
    (ic : IdentifiableChan) (hk : mapGet s.fanOutMap k = some ic) :
    mapGet s'.fanOutMap k = some ic := by
  cases h with
  | recvNew kvp hsel hh hnone =>
    show mapGet (mapSet s.fanOutMap kvp.Key _) k = some ic
    rw [mapSet_of_absent _ _ _ hnone, mapGet_append_of_present _ _ _ (by simp [hk])]
    exact hk
  | _ => exact hk

theorem exec_mapGet {s s' : State K V} {tr : List (Event K V)} (h : exec s tr = some s')
    (k : K) (ic : IdentifiableChan) (hk : mapGet s.fanOutMap k = some ic) :
    mapGet s'.fanOutMap k = some ic := by
  induction tr generalizing s with
  | nil =>
    simp only [exec, Option.some.injEq] at h
    subst h
    exact hk
  | cons e tr ih =>
    obtain ⟨s1, h1, h2⟩ := exec_cons h
    exact ih h2 (step_mapGet h1 k ic hk)

theorem shape_init : Shape ([] : List (Event K V)) (init K V) := by
  simp [Shape, init]

theorem all_loop_snoc {tr : List (Event K V)} {e : Event K V}
    (h : tr.all isLoopEvent = true) (he : isLoopEvent e = true) :
    (tr ++ [e]).all isLoopEvent = true := by
  simp only [List.all_append, List.all_cons, List.all_nil, Bool.and_true, Bool.and_eq_true]
  exact ⟨h, he⟩

theorem shape_step {tr : List (Event K V)} {s s' : State K V} {e : Event K V}
    (hex : exec (init K V) tr = some s) (hsh : Shape tr s) (h : Step s e s') :
    Shape (tr ++ [e]) s' := by
  cases h with
  | recvCrash kvp hsel hh =>
    simp only [Shape, hsel] at hsh
    exact all_loop_snoc hsh rfl
  | recvKnown kvp hsel hh hk =>
    simp only [Shape, hsel] at hsh
    exact all_loop_snoc hsh rfl
  | recvNew kvp hsel hh hk =>
    simp only [Shape, hsel] at hsh
    exact all_loop_snoc hsh rfl
  | inputClosed hsel =>
    simp only [Shape, hsel] at hsh
    have hcl := pcInv_of_exec hex
    simp only [PCInv, hsel] at hcl
    exact ⟨tr, Event.inputClosed, s, by simp [hcl.1], Or.inl rfl, hsh, hex, hsel, rfl, rfl, rfl⟩
  | cancelled hsel =>
    simp only [Shape, hsel] at hsh
    have hcl := pcInv_of_exec hex
    simp only [PCInv, hsel] at hcl
    exact ⟨tr, Event.cancelled, s, by simp [hcl.1], Or.inr rfl, hsh, hex, hsel, rfl, rfl, rfl⟩
  | announce kvp hpc hopen =>
    simp only [Shape, hpc] at hsh
    exact all_loop_snoc hsh rfl
  | announcePanic kvp hpc hclosed => simp [Shape]
  | send kvp ch hpc hch hopen =>
    simp only [Shape, hpc] at hsh
    exact all_loop_snoc hsh rfl
  | sendPanic kvp ch hpc hch hclosed => simp [Shape]
  | closeChan rest ic ch hpc hic hch hopen =>
    simp only [Shape, hpc] at hsh
    obtain ⟨body, stop, s0, htr, hstop, hall, hex0, hpc0, hm, ha, hc⟩ := hsh
    refine ⟨body, stop, s0, ?_, hstop, hall, hex0, hpc0, hm, ha, hc⟩
    simp [htr]
  | closeFanOutCh hpc hopen =>
    simp only [Shape, hpc] at hsh
    obtain ⟨body, stop, s0, htr, hstop, hall, hex0, hpc0, hm, ha, hc⟩ := hsh
    refine ⟨body, stop, s0, ?_, hstop, hall, hex0, hpc0, hm, ha, hc⟩
    simp [htr]
  | closePanic rest hpc hbad => simp [Shape]

/-- The events of every run from the initial state have the form `Shape`. -/
theorem shape_of_exec {tr : List (Event K V)} {s : State K V}
    (h : exec (init K V) tr = some s) : Shape tr s :=
  run_induction (fun tr s => Shape tr s) shape_init
    (fun _ _ _ _ hex hsh hst => shape_step hex hsh hst) tr s h

/-! ### Runs exist -/

/-- On the states of a run, `step` makes every transition of `Step`. -/
theorem step_complete {s s' : State K V} {e : Event K V} (hwf : WF s) (h : Step s e s') :
    step s e = some s' := by
  cases h with
  | recvCrash kvp hsel hh => simp [step, hsel, stepSelect, hh]
  | recvKnown kvp hsel hh hk => simp [step, hsel, stepSelect, hh, hk]
  | recvNew kvp hsel hh hk => simp [step, hsel, stepSelect, hh, hk]
  | inputClosed hsel => simp [step, hsel, stepSelect]
  | cancelled hsel => simp [step, hsel, stepSelect]
  | announce kvp hpc hopen => simp [step, hpc, stepAnnounce, hopen]
  | announcePanic kvp hpc hclosed => simp [step, hpc, stepAnnounce, hclosed]
  | send kvp ch hpc hch hopen => simp [step, hpc, stepForward, hch, hopen]
  | sendPanic kvp ch hpc hch hclosed => simp [step, hpc, stepForward, hch, hclosed]
  | closeChan rest ic ch hpc hic hch hopen =>
    have hinv := hwf.2.2.2.1
    simp only [PCInv, hpc] at hinv
    obtain ⟨_, pending, hrest, _⟩ := hinv
    simp only [step, hpc, stepShutdown]
    cases hf : rest.find? (fun ic => decide (ic.Chan = some ch)) with
    | none =>
      have := List.find?_eq_none.mp hf ic hic
      simp [hch] at this
    | some ic' =>
      have h1 := List.mem_of_find?_eq_some hf
      have h2 : ic'.Chan = some ch := by simpa using List.find?_some hf
      have heq : ic' = ic := by
        subst hrest
        obtain ⟨a, _, rfl⟩ := List.mem_map.mp h1
        obtain ⟨b, _, rfl⟩ := List.mem_map.mp hic
        simp only [chanOfSerial] at h2 hch
        rw [Option.some.inj h2, Option.some.inj hch]
      subst heq
      simp [hopen]
  | closeFanOutCh hpc hopen => simp [step, hpc, stepShutdown, hopen]
  | closePanic rest hpc hbad =>
    simp only [step, hpc, stepShutdown]
    rw [if_pos]
    rcases hbad with hb | hb
    · left
      simpa using hb
    · right
      exact hb

theorem exec_extend {tr : List (Event K V)} {s s' : State K V} {e : Event K V}
    (hex : exec (init K V) tr = some s) (h : Step s e s') :
    exec (init K V) (tr ++ [e]) = some s' := by
  rw [exec_append, hex]
  simp [exec, step_complete (wf_of_exec hex) h]

/-- Every input whose keys can be hashed and are `==` to themselves can be
processed: there is a run of the loop that receives exactly `input` and is
back at the `select`. -/
theorem exists_loop_run (input : List (KeyValuePair K V))
    (hlaw : ∀ kvp ∈ input, lawfulKey kvp.Key = true) :
    ∃ tr s, exec (init K V) tr = some s ∧ s.pc = PC.select ∧ received tr = input ∧
      tr.all isLoopEvent = true := by
  induction input using List.reverseRecOn with
  | nil => exact ⟨[], init K V, rfl, rfl, rfl, rfl⟩
  | append_singleton input kvp ih =>
    obtain ⟨tr, s, hex, hpc, hrec, hall⟩ :=
      ih (fun x hx => hlaw x (List.mem_append_left _ hx))
    have hk0 := hlaw kvp (List.mem_append_right _ (List.mem_singleton_self kvp))
    simp only [lawfulKey, Bool.and_eq_true] at hk0
    obtain ⟨hh, hkk⟩ := hk0
    cases hk : mapGet s.fanOutMap kvp.Key with
    | some v =>
      have hk' : (mapGet s.fanOutMap kvp.Key).isSome = true := by simp [hk]
      have h1 := exec_extend hex (Step.recvKnown s kvp hpc hh hk')
      obtain ⟨i, hi, hget⟩ := wf_chan (wf_of_exec hex) kvp.Key hk'
      have hcl := pcInv_of_exec h1
      simp only [PCInv] at hcl
      have h2 := exec_extend h1 (Step.send _ kvp i rfl
        (by simp [mapIndex, hget, chanOfSerial]) (by simp [hcl.1]))
      refine ⟨_, _, h2, rfl, ?_, ?_⟩
      · simp [received_append, received, hrec]
      · exact all_loop_snoc (all_loop_snoc hall rfl) rfl
    | none =>
      have h1 := exec_extend hex (Step.recvNew s kvp hpc hh hk)
      have hcl := pcInv_of_exec h1
      simp only [PCInv] at hcl
      have h2 := exec_extend h1 (Step.announce _ kvp rfl hcl.2.1)
      obtain ⟨i, hi, hget⟩ := wf_chan (wf_of_exec h1) kvp.Key (hcl.2.2 hkk)
      have h3 := exec_extend h2 (Step.send _ kvp i rfl
        (by simp only [mapIndex, hget, chanOfSerial, Option.getD_some]) (by simp [hcl.1]))
      refine ⟨_, _, h3, rfl, ?_, ?_⟩
      · simp [received_append, received, hrec]
      · exact all_loop_snoc (all_loop_snoc (all_loop_snoc hall rfl) rfl) rfl

theorem exists_closes (pending : List ChanRef) :
    ∀ (tr : List (Event K V)) (s : State K V), exec (init K V) tr = some s →
      s.pc = PC.shutdown (pending.map chanOfSerial) →
      ∃ s', exec (init K V) (tr ++ pending.map Event.closeChan) = some s' ∧
        s'.pc = PC.shutdown [] := by
  induction pending with
  | nil =>
    intro tr s hex hpc
    exact ⟨s, by simpa using hex, hpc⟩
  | cons c pending ih =>
    intro tr s hex hpc
    have hinv := pcInv_of_exec hex
    simp only [PCInv, hpc] at hinv
    obtain ⟨_, pending', hrest, hperm⟩ := hinv
    have hp : pending' = c :: pending :=
      (List.map_injective_iff.mpr chanOfSerial_injective hrest).symm
    subst hp
    have hnd : ((c :: pending) ++ s.closed).Nodup := hperm.nodup_iff.mpr (List.nodup_range _)
    have hopen : c ∉ s.closed := fun hc =>
      (List.disjoint_of_nodup_append hnd) (List.mem_cons_self c pending) hc
    have h1 := exec_extend hex (Step.closeChan s _ (chanOfSerial c) c hpc
      (by simp) rfl hopen)
    obtain ⟨s', h2, h3⟩ := ih _ _ h1 (by simp)
    exact ⟨s', by simpa using h2, h3⟩

/-- Every input whose keys can be hashed and are `==` to themselves can be
processed to the end: for each way `stop` of leaving the loop there is a run
that receives exactly `input`, leaves the loop by `stop`, closes the output
channels and `fanOutCh`, and returns. -/
theorem exists_complete_run (input : List (KeyValuePair K V)) (stop : Event K V)
    (hlaw : ∀ kvp ∈ input, lawfulKey kvp.Key = true)
    (hstop : stop = Event.inputClosed ∨ stop = Event.cancelled) :
    ∃ (body : List (Event K V)) (closes : List ChanRef) (s : State K V),
      body.all isLoopEvent = true ∧ received body = input ∧
      exec (init K V) (body ++ stop :: (closes.map Event.closeChan ++ [Event.closeFanOutCh]))
        = some s ∧ s.pc = PC.done := by
  obtain ⟨body, s0, hex, hpc, hrec, hall⟩ := exists_loop_run input hlaw
  have h1 : ∃ s1, exec (init K V) (body ++ [stop]) = some s1 ∧
      s1.pc = PC.shutdown ((List.range s0.allocated).map chanOfSerial) := by
    have hv := (wf_of_exec hex).1
    rcases hstop with h | h
    · subst h
      exact ⟨_, exec_extend hex (Step.inputClosed s0 hpc), by simp [hv]⟩
    · subst h
      exact ⟨_, exec_extend hex (Step.cancelled s0 hpc), by simp [hv]⟩
  obtain ⟨s1, hex1, hpc1⟩ := h1
  obtain ⟨s2, hex2, hpc2⟩ := exists_closes (List.range s0.allocated) _ s1 hex1 hpc1
  have hinv := pcInv_of_exec hex2
  simp only [PCInv, hpc2] at hinv
  have h3 := exec_extend hex2 (Step.closeFanOutCh s2 hpc2 hinv.1)
  exact ⟨body, List.range s0.allocated, _, hall, hrec, by simpa using h3, rfl⟩

/-! ### Consequences for runs -/

theorem mem_announced (tr : List (Event K V)) (ic : IdentifiableChan) :
    ic ∈ announced tr ↔ Event.announce ic ∈ tr := by
  induction tr with
  | nil => simp [announced]
  | cons e tr ih => cases e <;> simp [announced, ih]

theorem mem_sent (tr : List (Event K V)) (c : ChanRef) (kvp : KeyValuePair K V) :
    (c, kvp) ∈ sent tr ↔ Event.send c kvp ∈ tr := by
  induction tr with
  | nil => simp [sent]
  | cons e tr ih => cases e <;> simp [sent, ih]

theorem not_stalled_of_done {s : State K V} (hdone : s.pc = PC.done) : stalled s = false := by
  simp [stalled, hdone]

theorem map_mapIndex_keys (m : GoMap K) (hnd : KeysApart (m.map Prod.fst))
    (hself : ∀ k ∈ m.map Prod.fst, GoKey.eq k k = true) :
    (m.map Prod.fst).map (mapIndex m) = m.map Prod.snd := by
  rw [List.map_map]
  apply List.map_congr_left
  intro e he
  obtain ⟨k, v⟩ := e
  have hk := hself k (List.mem_map_of_mem Prod.fst he)
  simp [mapIndex, mapGet_of_mem m k v hnd hk he]

/-- The values of the registry are the bindings of the keys received, in
order of first appearance. -/
theorem registry_values {tr : List (Event K V)} {s : State K V}
    (h : exec (init K V) tr = some s) (hs : stalled s = false) :
    (firstSeen (keysOf (received tr))).map (mapIndex s.fanOutMap) =
      (List.range s.allocated).map chanOfSerial := by
  have hwf := wf_of_exec h
  rw [← (reg_of_exec h hs).1, map_mapIndex_keys _ hwf.2.2.1 (hwf.2.2.2.2 hs), hwf.1]

theorem registry_length {tr : List (Event K V)} {s : State K V}
    (h : exec (init K V) tr = some s) (hs : stalled s = false) :
    (firstSeen (keysOf (received tr))).length = s.allocated := by
  have := congrArg List.length (registry_values h hs)
  simpa using this

/-- No value is pending in a state that is not inside a processing step. -/
theorem announced_of_idle {tr : List (Event K V)} {s : State K V}
    (h : exec (init K V) tr = some s) (hs : stalled s = false)
    (hidle : pendingAnnounce s = []) :
    announced tr = (firstSeen (keysOf (received tr))).map (mapIndex s.fanOutMap) := by
  have h1 := (reg_of_exec h hs).2.1
  rw [hidle, List.append_nil] at h1
  rw [h1, registry_values h hs, (wf_of_exec h).1]

/-- When the send of line 42 is pending, the last event was the receipt of a
pair whose key is `==` to no key received before. -/
theorem at_announce {tr : List (Event K V)} {s : State K V} {kvp : KeyValuePair K V}
    (h : exec (init K V) tr = some s) (hpc : s.pc = PC.announce kvp) :
    ∃ pre, tr = pre ++ [Event.recv kvp] ∧ keyIn kvp.Key (keysOf (received pre)) = false := by
  rcases List.eq_nil_or_concat tr with hnil | ⟨pre, e, htr⟩
  · subst hnil
    simp only [exec, Option.some.injEq] at h
    subst h
    simp [init] at hpc
  · rw [List.concat_eq_append] at htr
    subst htr
    obtain ⟨s1, h1, hst⟩ := exec_snoc h
    cases hst with
    | recvNew kvp1 hsel hh hk =>
      simp only [PC.announce.injEq] at hpc
      subst hpc
      refine ⟨pre, rfl, ?_⟩
      have hkeys := (reg_of_exec h1 (by simp [stalled, hsel])).1
      rw [← keyIn_firstSeen, ← hkeys]
      exact (mapGet_eq_none_iff _ _).mp hk
    | _ => simp at hpc

/-- Keys bound to the same channel are `==`. -/
theorem chan_injective {s : State K V} (hwf : WF s) {k k' : K} {c : ChanRef}
    (h : (mapIndex s.fanOutMap k).Chan = some c) (h' : (mapIndex s.fanOutMap k').Chan = some c) :
    GoKey.eq k k' = true := by
  have hsome : ∀ k0, (mapIndex s.fanOutMap k0).Chan = some c →
      mapGet s.fanOutMap k0 = some (chanOfSerial c) := by
    intro k0 h0
    cases hg : mapGet s.fanOutMap k0 with
    | none => simp [mapIndex, hg, zeroChan] at h0
    | some v =>
      obtain ⟨i, _, hi⟩ := wf_chan hwf k0 (by simp [hg])
      rw [hg] at hi
      cases hi
      simp only [mapIndex, hg, Option.getD_some, chanOfSerial, Option.some.injEq] at h0
      rw [h0]
  obtain ⟨k1, h1, he1⟩ := mapGet_mem _ _ _ (hsome k h)
  obtain ⟨k2, h2, he2⟩ := mapGet_mem _ _ _ (hsome k' h')
  have hnd : (s.fanOutMap.map Prod.snd).Nodup := by
    rw [hwf.1]
    exact (List.nodup_range _).map chanOfSerial_injective
  have h12 : k1 = k2 := congrArg Prod.fst (List.inj_on_of_nodup_map hnd h1 h2 rfl)
  subst h12
  exact GoKey.eq_trans k k1 k' (by rw [GoKey.eq_symm]; exact he1) he2

theorem sentOn_eq_filter (m : GoMap K) (k : K) (c : ChanRef)
    (hinj : ∀ k', (mapIndex m k').Chan = some c ↔ GoKey.eq k' k = true) :
    ∀ (S : List (ChanRef × KeyValuePair K V)) (R : List (KeyValuePair K V)),
      S.map (fun p => (some p.1, p.2)) = R.map (routeOf m) →
      (S.filter (fun p => decide (p.1 = c))).map Prod.snd =
        R.filter (fun kvp => GoKey.eq kvp.Key k) := by
  intro S
  induction S with
  | nil =>
    intro R h
    cases R with
    | nil => rfl
    | cons r R => simp at h
  | cons p S ih =>
    intro R h
    cases R with
    | nil => simp at h
    | cons r R =>
      simp only [List.map_cons, List.cons.injEq, routeOf, Prod.mk.injEq] at h
      obtain ⟨⟨h1, h2⟩, h3⟩ := h
      have hiff : p.1 = c ↔ GoKey.eq r.Key k = true := by
        rw [← hinj r.Key, ← h1]
        constructor
        · intro hp
          rw [hp]
        · intro hp
          exact Option.some.inj hp
      by_cases hp : p.1 = c
      · have hr := hiff.mp hp
        simp only [List.filter_cons, hp, hr, decide_True, if_true, List.map_cons, ih R h3, h2]
      · have hr : GoKey.eq r.Key k = false := by
          cases hr : GoKey.eq r.Key k with
          | false => rfl
          | true => exact absurd (hiff.mpr hr) hp
        simp only [List.filter_cons, hp, hr, decide_False, Bool.false_eq_true, if_false,
          ih R h3]

theorem map_id_chanOfSerial (n : Nat) :
    ((List.range n).map chanOfSerial).map IdentifiableChan.ID = List.range' 1 n := by
  rw [List.range'_eq_map_range, List.map_map]
  apply List.map_congr_left
  intro i _
  simp [chanOfSerial, Nat.add_comm]

theorem prefix_of_range_map {α : Type} (f : Nat → α) (a t : List α) (n : Nat)
    (h : a ++ t = (List.range n).map f) : a = (List.range a.length).map f := by
  have hlen : a.length ≤ n := by
    have := congrArg List.length h
    simp only [List.length_append, List.length_map, List.length_range] at this
    omega
  have h1 : (a ++ t).take a.length = a := List.take_left a t
  rw [h, ← List.map_take, List.take_range, Nat.min_eq_left hlen] at h1
  exact h1.symm

/-- The IDs in the registry are `1, ..., chanID - 1`, in order of insertion. -/
theorem registry_ids {tr : List (Event K V)} {s : State K V}
    (h : exec (init K V) tr = some s) :
    s.fanOutMap.map (fun e => e.2.ID) = List.range' 1 (s.chanID - 1) := by
  have hwf := wf_of_exec h
  have h1 : s.fanOutMap.map (fun e => e.2.ID) =
      (s.fanOutMap.map Prod.snd).map IdentifiableChan.ID := by
    rw [List.map_map]
    rfl
  rw [h1, hwf.1, map_id_chanOfSerial, hwf.2.1]
  simp

/-- At most as many channels are allocated as pairs are received. -/
theorem allocated_le {tr : List (Event K V)} {s : State K V}
    (h : exec (init K V) tr = some s) : s.allocated ≤ (received tr).length := by
  refine run_induction (fun tr s => s.allocated ≤ (received tr).length) ?_ ?_ tr s h
  · simp [init]
  · intro tr s e s' _ ih hst
    cases hst <;> simp only [received_append, received, List.length_append, List.length_cons,
      List.length_nil] <;> omega

/-- The counter `chanID` is at most one more than the number of pairs
received. -/
theorem chanID_le {tr : List (Event K V)} {s : State K V}
    (h : exec (init K V) tr = some s) : s.chanID ≤ (received tr).length + 1 := by
  have h1 := allocated_le h
  have h3 := (wf_of_exec h).2.1
  omega

theorem received_of_loop_nil {body : List (Event K V)} {s : State K V}
    (hex : exec (init K V) body = some s) (hall : body.all isLoopEvent = true)
    (hrec : received body = []) : body = [] := by
  cases body with
  | nil => rfl
  | cons e body =>
    exfalso
    obtain ⟨s1, hst, _⟩ := exec_cons hex
    cases hst with
    | recvCrash kvp hsel hh => simp [received] at hrec
    | recvKnown kvp hsel hh hk => simp [received] at hrec
    | recvNew kvp hsel hh hk => simp [received] at hrec
    | inputClosed hsel => simp [isLoopEvent] at hall
    | cancelled hsel => simp [isLoopEvent] at hall
    | announce kvp hpc hopen => simp [init] at hpc
    | announcePanic kvp hpc hclosed => simp [init] at hpc
    | send kvp ch hpc hch hopen => simp [init] at hpc
    | sendPanic kvp ch hpc hch hclosed => simp [init] at hpc
    | closeChan rest ic ch hpc hic hch hopen => simp [init] at hpc
    | closeFanOutCh hpc hopen => simp [init] at hpc
    | closePanic rest hpc hbad => simp [init] at hpc

theorem received_of_closes (closes : List ChanRef) (tail : List (Event K V)) :
    received (closes.map Event.closeChan ++ tail) = received tail := by
  induction closes with
  | nil => rfl
  | cons c closes ih => simpa [received] using ih

theorem sent_of_closes (closes : List ChanRef) (tail : List (Event K V)) :
    sent (closes.map Event.closeChan ++ tail) = sent tail := by
  induction closes with
  | nil => rfl
  | cons c closes ih => simpa [sent] using ih

theorem announced_of_closes (closes : List ChanRef) (tail : List (Event K V)) :
    announced (closes.map Event.closeChan ++ tail) = announced tail := by
  induction closes with
  | nil => rfl
  | cons c closes ih => simpa [announced] using ih

theorem closedChans_of_closes (closes : List ChanRef) (tail : List (Event K V)) :
    closedChans (closes.map Event.closeChan ++ tail) = closes ++ closedChans tail := by
  induction closes with
  | nil => rfl
  | cons c closes ih => simpa [closedChans] using ih

theorem closedChans_of_loop {body : List (Event K V)} (hall : body.all isLoopEvent = true) :
    closedChans body = [] := by
  induction body with
  | nil => rfl
  | cons e body ih =>
    rw [List.all_cons, Bool.and_eq_true] at hall
    obtain ⟨he, hb⟩ := hall
    cases e <;> first
      | simpa [closedChans] using ih hb
      | simp [isLoopEvent] at he

/-- The channels in the registry, which are the channels of the first
`allocated` serial numbers. -/
theorem registry_chans {s : State K V} (hwf : WF s) :
    s.fanOutMap.map (fun e => e.2.Chan) = (List.range s.allocated).map some := by
  have h1 : s.fanOutMap.map (fun e => e.2.Chan) =
      (s.fanOutMap.map Prod.snd).map IdentifiableChan.Chan := by
    rw [List.map_map]
    rfl
  rw [h1, hwf.1, List.map_map]
  rfl

/-- Two runs that received the same pairs, and have not stalled, have the
same registry. -/
theorem registry_determined {tr tr1 : List (Event K V)} {s s1 : State K V}
    (h : exec (init K V) tr = some s) (h1 : exec (init K V) tr1 = some s1)
    (hs : stalled s = false) (hs1 : stalled s1 = false)
    (hrec : received tr = received tr1) : s.fanOutMap = s1.fanOutMap := by
  have hk : s.fanOutMap.map Prod.fst = s1.fanOutMap.map Prod.fst := by
    rw [(reg_of_exec h hs).1, (reg_of_exec h1 hs1).1, hrec]
  have hlen : s.allocated = s1.allocated := by
    rw [← registry_length h hs, ← registry_length h1 hs1, hrec]
  have hv : s.fanOutMap.map Prod.snd = s1.fanOutMap.map Prod.snd := by
    rw [(wf_of_exec h).1, (wf_of_exec h1).1, hlen]
  rw [← List.zip_unzip s.fanOutMap, ← List.zip_unzip s1.fanOutMap, List.unzip_eq_map,
    List.unzip_eq_map, hk, hv]

/-- The form of a run that has returned. -/
theorem shape_done {tr : List (Event K V)} {s : State K V}
    (h : exec (init K V) tr = some s) (hdone : s.pc = PC.done) :
    LeftLoop tr s [Event.closeFanOutCh] := by
  have := shape_of_exec h
  simpa only [Shape, hdone] using this

/-- The events after an event outside the loop are outside the loop. -/
theorem after_loop {tr : List (Event K V)} {s : State K V}
    (h : exec (init K V) tr = some s) (pre post : List (Event K V)) (e : Event K V)
    (htr : tr = pre ++ e :: post) (he : isLoopEvent e = false) :
    ∀ x ∈ post, isLoopEvent x = false := by
  have hsplit : ∃ a b : List (Event K V), tr = a ++ b ∧ a.all isLoopEvent = true ∧
      ∀ x ∈ b, isLoopEvent x = false := by
    have hwf := pcInv_of_exec h
    have hsh := shape_of_exec h
    have hleft : ∀ tail : List (Event K V), (∀ x ∈ tail, isLoopEvent x = false) →
        LeftLoop tr s tail → ∃ a b : List (Event K V), tr = a ++ b ∧
          a.all isLoopEvent = true ∧ ∀ x ∈ b, isLoopEvent x = false := by
      intro tail htail hl
      obtain ⟨body, stop, s0, htr0, hstop, hall, _⟩ := hl
      refine ⟨body, _, htr0, hall, ?_⟩
      intro x hx
      rcases List.mem_cons.mp hx with hx | hx
      · rcases hstop with hs | hs <;> simp [hx, hs, isLoopEvent]
      · rcases List.mem_append.mp hx with hx | hx
        · obtain ⟨c, _, rfl⟩ := List.mem_map.mp hx
          rfl
        · exact htail x hx
    cases hpc : s.pc with
    | select => exact ⟨tr, [], by simp, by simpa only [Shape, hpc] using hsh, by simp⟩
    | announce kvp => exact ⟨tr, [], by simp, by simpa only [Shape, hpc] using hsh, by simp⟩
    | forward kvp => exact ⟨tr, [], by simp, by simpa only [Shape, hpc] using hsh, by simp⟩
    | shutdown rest =>
      exact hleft [] (by simp) (by simpa only [Shape, hpc] using hsh)
    | done =>
      exact hleft [Event.closeFanOutCh] (by simp [isLoopEvent])
        (by simpa only [Shape, hpc] using hsh)
    | panicked => simp [PCInv, hpc] at hwf
    | crashed => exact ⟨tr, [], by simp, by simpa only [Shape, hpc] using hsh, by simp⟩
  obtain ⟨a, b, hab, ha, hb⟩ := hsplit
  rw [htr] at hab
  rcases List.append_eq_append_iff.mp hab with ⟨a1, ha1, hb1⟩ | ⟨c1, hc1, hd1⟩
  · cases a1 with
    | nil =>
      simp only [List.nil_append] at hb1
      intro x hx
      apply hb
      rw [← hb1]
      exact List.mem_cons_of_mem _ hx
    | cons y a1 =>
      exfalso
      simp only [List.cons_append, List.cons.injEq] at hb1
      rw [ha1] at ha
      simp only [List.all_append, List.all_cons, Bool.and_eq_true] at ha
      rw [← hb1.1, he] at ha
      simp at ha
  · intro x hx
    apply hb
    rw [hd1]
    exact List.mem_append_right _ (List.mem_cons_of_mem _ hx)

theorem not_mem_of_loop {body : List (Event K V)} (hall : body.all isLoopEvent = true)
    (e : Event K V) (he : isLoopEvent e = false) : e ∉ body := by
  intro hmem
  have := List.all_eq_true.mp hall e hmem
  rw [he] at this
  cases this

theorem sent_of_idle {tr : List (Event K V)} {s : State K V}
    (h : exec (init K V) tr = some s) (hs : stalled s = false) (hidle : pendingSend s = []) :
    (sent tr).map (fun p => (some p.1, p.2)) = (received tr).map (routeOf s.fanOutMap) ∧
    (sent tr).map Prod.snd = received tr := by
  have h1 := (reg_of_exec h hs).2.2.1
  rw [hidle, List.map_nil, List.append_nil] at h1
  refine ⟨h1, ?_⟩
  have h2 := congrArg (List.map Prod.snd) h1
  simpa [List.map_map, Function.comp_def, routeOf] using h2

theorem closed_nodup {s : State K V} (hwf : WF s) : s.closed.Nodup := by
  have hinv := hwf.2.2.2.1
  cases hpc : s.pc with
  | select => simp [PCInv, hpc] at hinv; simp [hinv.1]
  | announce kvp => simp [PCInv, hpc] at hinv; simp [hinv.1]
  | forward kvp => simp [PCInv, hpc] at hinv; simp [hinv.1]
  | shutdown rest =>
    simp only [PCInv, hpc] at hinv
    obtain ⟨_, pending, _, hperm⟩ := hinv
    have hnd : (pending ++ s.closed).Nodup := hperm.nodup_iff.mpr (List.nodup_range _)
    exact (List.nodup_append.mp hnd).2.1
  | done =>
    simp only [PCInv, hpc] at hinv
    exact hinv.2.nodup_iff.mpr (List.nodup_range _)
  | panicked => simp [PCInv, hpc] at hinv
  | crashed => simp [PCInv, hpc] at hinv; simp [hinv.1]

/-- The closes of a run, in order, are the channels recorded as closed. -/
theorem closedChans_eq {tr : List (Event K V)} {s : State K V}
    (h : exec (init K V) tr = some s) : closedChans tr = s.closed.reverse := by
  have hinv := pcInv_of_exec h
  have hsh := shape_of_exec h
  have hleft : ∀ tail : List (Event K V), closedChans tail = [] → LeftLoop tr s tail →
      closedChans tr = s.closed.reverse := by
    intro tail htail hl
    obtain ⟨body, stop, s0, htr0, hstop, hall, _⟩ := hl
    rw [htr0, closedChans_append, closedChans_of_loop hall]
    rcases hstop with hs | hs <;>
      simp only [hs, closedChans, List.nil_append, closedChans_of_closes, htail,
        List.append_nil]
  cases hpc : s.pc with
  | select =>
    simp only [PCInv, hpc] at hinv
    simp only [Shape, hpc] at hsh
    simp [closedChans_of_loop hsh, hinv.1]
  | announce kvp =>
    simp only [PCInv, hpc] at hinv
    simp only [Shape, hpc] at hsh
    simp [closedChans_of_loop hsh, hinv.1]
  | forward kvp =>
    simp only [PCInv, hpc] at hinv
    simp only [Shape, hpc] at hsh
    simp [closedChans_of_loop hsh, hinv.1]
  | shutdown rest => exact hleft [] rfl (by simpa only [Shape, hpc] using hsh)
  | done => exact hleft [Event.closeFanOutCh] rfl (by simpa only [Shape, hpc] using hsh)
  | panicked => simp [PCInv, hpc] at hinv
  | crashed =>
    simp only [PCInv, hpc] at hinv
    simp only [Shape, hpc] at hsh
    simp [closedChans_of_loop hsh, hinv.1]

/-- No run contains a panic. -/
theorem panic_not_mem {tr : List (Event K V)} {s : State K V}
    (h : exec (init K V) tr = some s) : Event.panic ∉ tr := by
  intro hmem
  obtain ⟨pre, post, htr⟩ := List.append_of_mem hmem
  subst htr
  obtain ⟨s1, s2, h1, hst, _⟩ := exec_split h
  have hinv := pcInv_of_exec (exec_extend h1 hst)
  cases hst with
  | announcePanic kvp hpc hclosed => simp [PCInv] at hinv
  | sendPanic kvp ch hpc hch hclosed => simp [PCInv] at hinv
  | closePanic rest hpc hbad => simp [PCInv] at hinv

/-- The close of `fanOutCh` is not in a run that has not returned, and is
the last event of one that has. -/
theorem closeFanOutCh_count {tr : List (Event K V)} {s : State K V}
    (h : exec (init K V) tr = some s) : tr.count Event.closeFanOutCh ≤ 1 := by
  have hinv := pcInv_of_exec h
  have hsh := shape_of_exec h
  have hloop : ∀ body : List (Event K V), body.all isLoopEvent = true →
      body.count Event.closeFanOutCh = 0 := fun body hall =>
    List.count_eq_zero.mpr (not_mem_of_loop hall _ rfl)
  have hcl : ∀ closes : List ChanRef,
      (closes.map Event.closeChan).count (Event.closeFanOutCh : Event K V) = 0 := by
    intro closes
    apply List.count_eq_zero.mpr
    intro hmem
    obtain ⟨c, _, hc⟩ := List.mem_map.mp hmem
    cases hc
  have hleft : ∀ tail : List (Event K V), tail.count Event.closeFanOutCh ≤ 1 →
      LeftLoop tr s tail → tr.count Event.closeFanOutCh ≤ 1 := by
    intro tail htail hl
    obtain ⟨body, stop, s0, htr0, hstop, hall, _⟩ := hl
    rw [htr0, List.count_append, hloop body hall, List.count_cons, List.count_append, hcl]
    rcases hstop with hs | hs <;> simp [hs] <;> exact htail
  cases hpc : s.pc with
  | select =>
    simp only [Shape, hpc] at hsh
    simp [hloop tr hsh]
  | announce kvp =>
    simp only [Shape, hpc] at hsh
    simp [hloop tr hsh]
  | forward kvp =>
    simp only [Shape, hpc] at hsh
    simp [hloop tr hsh]
  | shutdown rest => exact hleft [] (by simp) (by simpa only [Shape, hpc] using hsh)
  | done =>
    exact hleft [Event.closeFanOutCh] (by simp) (by simpa only [Shape, hpc] using hsh)
  | panicked => simp [PCInv, hpc] at hinv
  | crashed =>
    simp only [Shape, hpc] at hsh
    simp [hloop tr hsh]

theorem received_tail (stop : Event K V) (closes : List ChanRef)
    (hstop : stop = Event.inputClosed ∨ stop = Event.cancelled) :
    received (stop :: (closes.map Event.closeChan ++ [Event.closeFanOutCh])) = [] := by
  rcases hstop with hs | hs <;> subst hs
  · show received (closes.map Event.closeChan ++ [Event.closeFanOutCh]) = []
    rw [received_of_closes]
    rfl
  · show received (closes.map Event.closeChan ++ [Event.closeFanOutCh]) = []
    rw [received_of_closes]
    rfl

/-- A run that has returned: the loop, the event that left it, the closes of
all the output channels of the registry, and the close of `fanOutCh`. -/
theorem complete_run_form {tr : List (Event K V)} {s : State K V}
    (h : exec (init K V) tr = some s) (hdone : s.pc = PC.done) :
    ∃ (body : List (Event K V)) (stop : Event K V) (closes : List ChanRef) (s0 : State K V),
      tr = body ++ stop :: (closes.map Event.closeChan ++ [Event.closeFanOutCh]) ∧
      (stop = Event.inputClosed ∨ stop = Event.cancelled) ∧
      body.all isLoopEvent = true ∧ received body = received tr ∧
      exec (init K V) body = some s0 ∧ s0.pc = PC.select ∧ s0.fanOutMap = s.fanOutMap ∧
      List.Perm (closes.map some) (s.fanOutMap.map (fun e => e.2.Chan)) ∧
      closes.length = (firstSeen (keysOf (received tr))).length := by
  obtain ⟨body, stop, s0, htr, hstop, hall, hex0, hpc0, hm, ha, hc⟩ := shape_done h hdone
  have hwf := wf_of_exec h
  have hinv := hwf.2.2.2.1
  simp only [PCInv, hdone] at hinv
  have hperm : List.Perm s.closed.reverse (List.range s.allocated) :=
    (List.reverse_perm _).trans hinv.2
  refine ⟨body, stop, s.closed.reverse, s0, htr, hstop, hall, ?_, hex0, hpc0, hm, ?_, ?_⟩
  · rw [htr, received_append, received_tail stop _ hstop, List.append_nil]
  · rw [registry_chans hwf]
    exact hperm.map some
  · rw [registry_length h (not_stalled_of_done hdone), hperm.length_eq, List.length_range]

theorem stop_swap {s s' : State K V} {body rest : List (Event K V)}
    (h : exec s (body ++ Event.cancelled :: rest) = some s') :
    exec s (body ++ Event.inputClosed :: rest) = some s' := by
  rw [exec_append] at h ⊢
  cases h1 : exec s body with
  | none => simp [h1] at h
  | some s1 =>
    simp only [h1, Option.some_bind, exec] at h ⊢
    have : step s1 Event.inputClosed = step s1 Event.cancelled := by
      simp only [step]
      cases s1.pc <;> rfl
    rw [this]
    exact h

/-- Every key received in a run that has not stalled is `==` to itself. -/
theorem received_self_eq {tr : List (Event K V)} {s : State K V}
    (h : exec (init K V) tr = some s) (hs : stalled s = false) :
    ∀ kvp ∈ received tr, GoKey.eq kvp.Key kvp.Key = true :=
  (reg_of_exec h hs).2.2.2

/-- Every key received in a run that has not stalled is found in the
registry. -/
theorem received_bound {tr : List (Event K V)} {s : State K V}
    (h : exec (init K V) tr = some s) (hs : stalled s = false) :
    ∀ kvp ∈ received tr, (mapGet s.fanOutMap kvp.Key).isSome = true := by
  intro kvp hkvp
  rw [mapGet_isSome, (reg_of_exec h hs).1, keyIn_firstSeen]
  exact keyIn_of_mem (List.mem_map_of_mem KeyValuePair.Key hkvp) (received_self_eq h hs kvp hkvp)

/-- As long as the dispatcher has not stalled, the keys received are bound, in
order of first appearance, to the IDs `1, ..., d`, and the IDs announced so
far are `1, 2, ...` without a gap. -/
theorem ids_of_not_stalled {tr : List (Event K V)} {s : State K V}
    (h : exec (init K V) tr = some s) (hs : stalled s = false) :
    (firstSeen (keysOf (received tr))).map (fun k => (mapIndex s.fanOutMap k).ID) =
      List.range' 1 (firstSeen (keysOf (received tr))).length ∧
    (announced tr).map IdentifiableChan.ID = List.range' 1 (announced tr).length := by
  have hvals := registry_values h hs
  have hann := (reg_of_exec h hs).2.1
  rw [(wf_of_exec h).1] at hann
  constructor
  · have h1 := congrArg (List.map IdentifiableChan.ID) hvals
    rw [map_id_chanOfSerial, List.map_map, ← registry_length h hs] at h1
    exact h1
  · have h1 := prefix_of_range_map chanOfSerial _ _ _ hann
    have h2 := congrArg (List.map IdentifiableChan.ID) h1
    rw [map_id_chanOfSerial] at h2
    exact h2

end Basics

section Claims

variable {K V : Type} [DecidableEq K] [GoKey K] [DecidableEq V]

/-- C1. In a run that has returned, the values announced on `fanOutCh` are
the bindings of the distinct keys received, in order of first appearance; no
value is announced twice; and every announcement comes right after the
receipt of a pair whose key had not been received before (no key received
before is `==` to it), so a later pair with that key announces nothing.  This
holds whether the loop was left because the input was closed or by
cancellation. -/
theorem announced_once (tr : List (Event K V)) (s : State K V)
    (hrun : exec (init K V) tr = some s) (hdone : s.pc = PC.done) :
    announced tr = (firstSeen (keysOf (received tr))).map (mapIndex s.fanOutMap) ∧
    (announced tr).Nodup ∧
    (∀ k ∈ keysOf (received tr), (announced tr).count (mapIndex s.fanOutMap k) = 1) ∧
    (∀ pre ic post, tr = pre ++ Event.announce ic :: post →
      ∃ pre1 kvp, pre = pre1 ++ [Event.recv kvp] ∧ kvp.Key ∉ keysOf (received pre1) ∧
        keyIn kvp.Key (keysOf (received pre1)) = false ∧
        ic = mapIndex s.fanOutMap kvp.Key) := by
  have hs := not_stalled_of_done hdone
  have hself := received_self_eq hrun hs
  have hann := announced_of_idle hrun hs (by simp [pendingAnnounce, hdone])
  have hnd : (announced tr).Nodup := by
    rw [hann, registry_values hrun hs]
    exact (List.nodup_range _).map chanOfSerial_injective
  refine ⟨hann, hnd, ?_, ?_⟩
  · intro k hk
    apply List.count_eq_one_of_mem hnd
    rw [hann]
    obtain ⟨kvp, hkvp, rfl⟩ := List.mem_map.mp hk
    have hin : keyIn kvp.Key (firstSeen (keysOf (received tr))) = true := by
      rw [keyIn_firstSeen]
      exact keyIn_of_mem hk (hself kvp hkvp)
    simp only [keyIn, List.any_eq_true] at hin
    obtain ⟨k0, hk0, he⟩ := hin
    have : mapIndex s.fanOutMap kvp.Key = mapIndex s.fanOutMap k0 := by
      simp only [mapIndex, mapGet_congr s.fanOutMap he]
    rw [this]
    exact List.mem_map_of_mem _ hk0
  · intro pre ic post htr
    subst htr
    obtain ⟨s1, s2, h1, hst, h2⟩ := exec_split hrun
    cases hst with
    | announce kvp hpc hopen =>
      obtain ⟨pre1, hpre, hfresh⟩ := at_announce h1 hpc
      have hkk : GoKey.eq kvp.Key kvp.Key = true := by
        apply hself
        rw [hpre]
        simp [received_append, received]
      refine ⟨pre1, kvp, hpre, ?_, hfresh, ?_⟩
      · intro hmem
        rw [keyIn_of_mem hmem hkk] at hfresh
        cases hfresh
      · have hinv := pcInv_of_exec h1
        simp only [PCInv, hpc] at hinv
        cases hg : mapGet s1.fanOutMap kvp.Key with
        | none =>
          have := hinv.2.2 hkk
          simp [hg] at this
        | some v =>
          have := exec_mapGet h2 kvp.Key v hg
          simp [mapIndex, hg, this]

/-- C1 on the run `runABA`. -/
theorem announced_once_witness :
    exec (init String Int) runABA = some endABA ∧ endABA.pc = PC.done ∧
    announced runABA = [⟨1, some 0⟩, ⟨2, some 1⟩] ∧
    firstSeen (keysOf (received runABA)) = ["A", "B"] ∧
    (announced runABA).Nodup :=
  ⟨by decide, by decide, by decide, by decide,
    (announced_once runABA endABA (by decide) (by decide)).2.1⟩

/-- C2. In a run that has returned, every key received is bound to a channel;
the pairs sent on the channel bound to a key are exactly the pairs received
with that key (a key `==` to it), in the order received; and a pair is only
ever sent on the channel bound to its own key. -/
theorem per_key_order (tr : List (Event K V)) (s : State K V)
    (hrun : exec (init K V) tr = some s) (hdone : s.pc = PC.done) :
    (∀ kvp ∈ received tr, ∃ c, (mapIndex s.fanOutMap kvp.Key).Chan = some c) ∧
    (∀ k c, (mapIndex s.fanOutMap k).Chan = some c →
      sentOn c tr = (received tr).filter (fun kvp => GoKey.eq kvp.Key k)) ∧
    (∀ c kvp, Event.send c kvp ∈ tr → (mapIndex s.fanOutMap kvp.Key).Chan = some c) := by
  have hwf := wf_of_exec hrun
  have hs := not_stalled_of_done hdone
  have hsent := (sent_of_idle hrun hs (by simp [pendingSend, hdone])).1
  refine ⟨?_, ?_, ?_⟩
  · intro kvp hkvp
    have hk := received_bound hrun hs kvp hkvp
    obtain ⟨i, _, hi⟩ := wf_chan hwf kvp.Key hk
    exact ⟨i, by simp [mapIndex, hi, chanOfSerial]⟩
  · intro k c hkc
    refine sentOn_eq_filter s.fanOutMap k c ?_ (sent tr) (received tr) hsent
    intro k1
    constructor
    · intro h1
      exact chan_injective hwf h1 hkc
    · intro h1
      rw [mapIndex, mapGet_congr s.fanOutMap h1]
      exact hkc
  · intro c kvp hmem
    have h1 : (some c, kvp) ∈ (sent tr).map (fun p => (some p.1, p.2)) :=
      List.mem_map.mpr ⟨(c, kvp), (mem_sent tr c kvp).mpr hmem, rfl⟩
    rw [hsent] at h1
    obtain ⟨x, _, hx⟩ := List.mem_map.mp h1
    simp only [routeOf, Prod.mk.injEq] at hx
    obtain ⟨hx1, hx2⟩ := hx
    subst hx2
    exact hx1

/-- C2 on the run `runABA`: 1 then 3 on the channel of `A`, 2 on the channel
of `B`. -/
theorem per_key_order_witness :
    exec (init String Int) runABA = some endABA ∧ endABA.pc = PC.done ∧
    received runABA = [⟨"A", 1⟩, ⟨"B", 2⟩, ⟨"A", 3⟩] ∧
    (mapIndex endABA.fanOutMap "A").Chan = some 0 ∧
    (mapIndex endABA.fanOutMap "B").Chan = some 1 ∧
    sentOn 0 runABA = [⟨"A", 1⟩, ⟨"A", 3⟩] ∧ sentOn 1 runABA = [⟨"B", 2⟩] ∧
    sentOn 0 runABA = (received runABA).filter (fun kvp => decide (kvp.Key = "A")) ∧
    sentOn 0 runABA = (received runABA).filter (fun kvp => GoKey.eq kvp.Key "A") :=
  ⟨by decide, by decide, by decide, by decide, by decide, by decide, by decide, by decide,
    (per_key_order runABA endABA (by decide) (by decide)).2.1 "A" 0 (by decide)⟩

/-- C3. On the `float64` input `[(NaN,1)]` the first ID announced is 0, not 1.
Line 40 stores the `IdentifiableChan` with ID 1 under the key NaN, and the
lookup `fanOutMap[kvp.Key]` of line 42 does not find it, because NaN is not
`==` to itself: the one event that can follow the receipt of the pair is the
announcement of the zero value, with ID 0 and the nil channel. -/
theorem nan_key_announced_with_id_zero :
    exec (init Float64 Int) [Event.recv ⟨Float64.NaN, 1⟩] = some afterNaN ∧
    afterNaN.fanOutMap.map (fun e => e.2.ID) = [1] ∧
    mapIndex afterNaN.fanOutMap Float64.NaN = ⟨0, none⟩ ∧
    (∀ e s1, step afterNaN e = some s1 → e = Event.announce ⟨0, none⟩ ∧ s1 = stuckNaN) ∧
    exec (init Float64 Int) runNaN = some stuckNaN ∧
    received runNaN = [⟨Float64.NaN, 1⟩] ∧
    (announced runNaN).map IdentifiableChan.ID = [0] := by
  refine ⟨by decide, by decide, by decide, ?_, by decide, by decide, by decide⟩
  intro e s1 h
  have hst := step_sound h
  cases hst with
  | announce kvp hpc hopen =>
    have hk : kvp = ⟨Float64.NaN, 1⟩ := by
      simp only [afterNaN, PC.announce.injEq] at hpc
      exact hpc.symm
    subst hk
    exact ⟨by decide, by decide⟩
  | announcePanic kvp hpc hclosed => simp [afterNaN] at hclosed
  | _ => simp_all [afterNaN]

/-- C4. In every run, complete or not, whenever a pair is sent on an output
channel, the `IdentifiableChan` bound to the key of the pair holds that
channel and has been announced on `fanOutCh` strictly earlier in the run. -/
theorem announce_before_send (tr : List (Event K V)) (s : State K V)
    (hrun : exec (init K V) tr = some s) (pre post : List (Event K V)) (c : ChanRef)
    (kvp : KeyValuePair K V) (htr : tr = pre ++ Event.send c kvp :: post) :
    Event.announce (mapIndex s.fanOutMap kvp.Key) ∈ pre ∧
    (mapIndex s.fanOutMap kvp.Key).Chan = some c := by
  subst htr
  obtain ⟨s1, s2, h1, hst, h2⟩ := exec_split hrun
  cases hst with
  | send kvp1 ch hpc hch hopen =>
    have hs1 : stalled s1 = false := by simp [stalled, hpc, self_eq_of_chan hch]
    have hann := (reg_of_exec h1 hs1).2.1
    simp only [pendingAnnounce, hpc, List.append_nil] at hann
    cases hg : mapGet s1.fanOutMap kvp.Key with
    | none =>
      have := isSome_of_chan hch
      simp [hg] at this
    | some v =>
      have hstable : mapGet s.fanOutMap kvp.Key = some v := exec_mapGet h2 kvp.Key v hg
      have hidx : mapIndex s.fanOutMap kvp.Key = mapIndex s1.fanOutMap kvp.Key := by
        simp [mapIndex, hg, hstable]
      rw [hidx]
      refine ⟨?_, hch⟩
      rw [← mem_announced, hann]
      obtain ⟨k1, hmem, _⟩ := mapGet_mem _ _ _ hg
      have := List.mem_map_of_mem Prod.snd hmem
      simpa [mapIndex, hg] using this

/-- C4 on the run `runABA`, at the second send on the channel of `A`. -/
theorem announce_before_send_witness :
    exec (init String Int) runABA = some endABA ∧
    Event.announce (mapIndex endABA.fanOutMap "A") ∈ runABA.take 7 ∧
    (mapIndex endABA.fanOutMap "A").Chan = some 0 :=
  ⟨by decide,
    announce_before_send runABA endABA (by decide) (runABA.take 7) (runABA.drop 8) 0
      ⟨"A", 3⟩ (by decide)⟩

/-- C5. On the `float64` input `[(NaN,1)]` the dispatcher never shuts down.
After the announcement of the zero value, line 44 sends on the nil channel
that the lookup `fanOutMap[kvp.Key]` yields, which blocks for ever: no event
can happen in the state `stuckNaN`, not the observation that the input is
closed and no close, and no run that receives the pair returns.  On an input
of key type `any`, a pair whose key holds a slice kills the dispatcher at the
lookup of line 38, and no event can happen after it either. -/
theorem nan_key_never_shuts_down :
    exec (init Float64 Int) runNaN = some stuckNaN ∧
    (∀ e, step stuckNaN e = none) ∧
    closedChans runNaN = [] ∧ stuckNaN.fanOutChClosed = false ∧
    (¬ ∃ (tr : List (Event Float64 Int)) (s : State Float64 Int),
      exec (init Float64 Int) tr = some s ∧ s.pc = PC.done ∧
        received tr = [⟨Float64.NaN, 1⟩]) ∧
    exec (init AnyKey Int) [Event.recv ⟨AnyKey.slice [1], 1⟩] = some crashedSlice ∧
    (∀ e, step crashedSlice e = none) := by
  refine ⟨by decide, ?_, by decide, by decide, ?_, by decide, ?_⟩
  · intro e
    cases e <;> simp [step, stuckNaN, stepForward, mapIndex, mapGet, zeroChan, GoKey.eq,
      Float64.eq]
  · rintro ⟨tr, s, hrun, hdone, hrec⟩
    have := received_self_eq hrun (not_stalled_of_done hdone) ⟨Float64.NaN, 1⟩
      (by rw [hrec]; exact List.mem_singleton_self _)
    simp [GoKey.eq, Float64.eq] at this
  · intro e
    rfl

/-- C6. For every input and every `n`, if the keys of the first `n` pairs can
be hashed and are `==` to themselves, there is a run that receives the first
`n` pairs, takes the cancellation and returns.  Every run that does so
consists of a run of the loop on those `n` pairs, the cancellation, one close
for each output channel of the registry, in some order, and the close of
`fanOutCh`; it receives nothing after the cancellation; with the observation
that the input is closed in place of the cancellation it is a run on the `n`
pairs as input, to the same state; and it announces and sends exactly what
every run that receives those `n` pairs and returns does. -/
theorem shutdown_on_cancel (input : List (KeyValuePair K V)) (n : Nat) :
    ((∀ kvp ∈ input.take n, lawfulKey kvp.Key = true) →
      ∃ (tr : List (Event K V)) (s : State K V), exec (init K V) tr = some s ∧
        s.pc = PC.done ∧ received tr = input.take n ∧ Event.cancelled ∈ tr) ∧
    (∀ (tr : List (Event K V)) (s : State K V), exec (init K V) tr = some s →
      s.pc = PC.done → received tr = input.take n → Event.cancelled ∈ tr →
      ∃ (body : List (Event K V)) (closes : List ChanRef),
        tr = body ++ Event.cancelled ::
          (closes.map Event.closeChan ++ [Event.closeFanOutCh]) ∧
        body.all isLoopEvent = true ∧ received body = input.take n ∧
        List.Perm (closes.map some) (s.fanOutMap.map (fun e => e.2.Chan)) ∧
        exec (init K V) (body ++ Event.inputClosed ::
          (closes.map Event.closeChan ++ [Event.closeFanOutCh])) = some s ∧
        (∀ (tr1 : List (Event K V)) (s1 : State K V), exec (init K V) tr1 = some s1 →
          s1.pc = PC.done → received tr1 = input.take n →
          announced tr1 = announced tr ∧ sent tr1 = sent tr)) := by
  constructor
  · intro hlaw
    obtain ⟨body, closes, s, hall, hrec, hex, hdone⟩ :=
      exists_complete_run (input.take n) Event.cancelled hlaw (Or.inr rfl)
    refine ⟨_, s, hex, hdone, ?_, ?_⟩
    · rw [received_append, received_tail _ _ (Or.inr rfl), List.append_nil, hrec]
    · simp
  · intro tr s hrun hdone hrec hc
    obtain ⟨body, stop, closes, s0, htr, hstop, hall, hrb, hex0, hpc0, hm, hperm, hlen⟩ :=
      complete_run_form hrun hdone
    have hs : stop = Event.cancelled := by
      rcases hstop with hs | hs
      · exfalso
        rw [htr, hs] at hc
        rcases List.mem_append.mp hc with hm1 | hm1
        · exact not_mem_of_loop hall Event.cancelled rfl hm1
        · simp at hm1
      · exact hs
    subst hs
    refine ⟨body, closes, htr, hall, hrb.trans hrec, hperm, ?_, ?_⟩
    · rw [htr] at hrun
      exact stop_swap hrun
    · intro tr1 s1 hrun1 hdone1 hrec1
      have hrr : received tr1 = received tr := hrec1.trans hrec.symm
      have hst := not_stalled_of_done hdone
      have hst1 := not_stalled_of_done hdone1
      have hmap := registry_determined hrun1 hrun hst1 hst hrr
      constructor
      · rw [announced_of_idle hrun1 hst1 (by simp [pendingAnnounce, hdone1]),
          announced_of_idle hrun hst (by simp [pendingAnnounce, hdone]), hrr, hmap]
      · have h1 := (sent_of_idle hrun1 hst1 (by simp [pendingSend, hdone1])).1
        have h2 := (sent_of_idle hrun hst (by simp [pendingSend, hdone])).1
        rw [hrr, hmap, ← h2] at h1
        refine List.map_injective_iff.mpr ?_ h1
        intro p q hpq
        simp only [Prod.mk.injEq, Option.some.injEq] at hpq
        exact Prod.ext hpq.1 hpq.2

/-- C6 on the input `[(A,1)]`: the run that takes the cancellation first sends
nothing, the run that takes the pair first sends it, and both end with every
channel made closed and `fanOutCh` closed. -/
theorem shutdown_on_cancel_witness :
    (exec (init String Int) cancelEarly = some endEmpty ∧ sent cancelEarly = [] ∧
      received cancelEarly = [] ∧ endEmpty.fanOutChClosed = true ∧ endEmpty.closed = []) ∧
    (exec (init String Int) cancelLate = some endCancelLate ∧
      sent cancelLate = [(0, ⟨"A", 1⟩)] ∧ received cancelLate = [⟨"A", 1⟩] ∧
      endCancelLate.fanOutChClosed = true ∧ endCancelLate.closed = [0]) ∧
    (∃ (body : List (Event String Int)) (closes : List ChanRef),
      cancelLate = body ++ Event.cancelled ::
        (closes.map Event.closeChan ++ [Event.closeFanOutCh]) ∧
      body.all isLoopEvent = true ∧
      received body = ([⟨"A", 1⟩] : List (KeyValuePair String Int)).take 1 ∧
      List.Perm (closes.map some) (endCancelLate.fanOutMap.map (fun e => e.2.Chan)) ∧
      exec (init String Int) (body ++ Event.inputClosed ::
        (closes.map Event.closeChan ++ [Event.closeFanOutCh])) = some endCancelLate ∧
      (∀ (tr1 : List (Event String Int)) (s1 : State String Int),
        exec (init String Int) tr1 = some s1 → s1.pc = PC.done →
        received tr1 = ([⟨"A", 1⟩] : List (KeyValuePair String Int)).take 1 →
        announced tr1 = announced cancelLate ∧ sent tr1 = sent cancelLate)) :=
  ⟨⟨by decide, by decide, by decide, by decide, by decide⟩,
    ⟨by decide, by decide, by decide, by decide, by decide⟩,
    (shutdown_on_cancel [⟨"A", 1⟩] 1).2 cancelLate endCancelLate
      (by decide) (by decide) (by decide) (by decide)⟩

/-- C7. In a run that has returned, by the end of the input or by
cancellation, the pairs sent are the pairs received, in the same order and
each on the channel bound to its key, so as many were sent as were received;
all of them were sent in the loop, before the event that left it; and whenever
the loop is left, every pair received so far has been sent. -/
theorem no_item_dropped (tr : List (Event K V)) (s : State K V)
    (hrun : exec (init K V) tr = some s) (hdone : s.pc = PC.done) :
    (sent tr).map (fun p => (some p.1, p.2)) = (received tr).map (routeOf s.fanOutMap) ∧
    (sent tr).map Prod.snd = received tr ∧
    (sent tr).length = (received tr).length ∧
    (∃ (body rest : List (Event K V)) (stop : Event K V), tr = body ++ stop :: rest ∧
      (stop = Event.inputClosed ∨ stop = Event.cancelled) ∧
      body.all isLoopEvent = true ∧ sent body = sent tr ∧ received body = received tr) ∧
    (∀ (pre post : List (Event K V)) (stop : Event K V), tr = pre ++ stop :: post →
      stop = Event.inputClosed ∨ stop = Event.cancelled →
      (sent pre).map Prod.snd = received pre) := by
  have hidle := sent_of_idle hrun (not_stalled_of_done hdone) (by simp [pendingSend, hdone])
  refine ⟨hidle.1, hidle.2, ?_, ?_, ?_⟩
  · have := congrArg List.length hidle.2
    simpa using this
  · obtain ⟨body, stop, closes, s0, htr, hstop, hall, hrb, hex0, hpc0, hm, hperm, hlen⟩ :=
      complete_run_form hrun hdone
    refine ⟨body, _, stop, htr, hstop, hall, ?_, hrb⟩
    have hs : sent (stop :: (closes.map Event.closeChan ++ [Event.closeFanOutCh])) = [] := by
      rcases hstop with hs | hs <;> subst hs
      · show sent (closes.map Event.closeChan ++ [Event.closeFanOutCh]) = []
        rw [sent_of_closes]
        rfl
      · show sent (closes.map Event.closeChan ++ [Event.closeFanOutCh]) = []
        rw [sent_of_closes]
        rfl
    rw [htr, sent_append, hs, List.append_nil]
  · intro pre post stop htr hstop
    subst htr
    obtain ⟨s1, s2, h1, hst, _⟩ := exec_split hrun
    have hsel : s1.pc = PC.select := by
      rcases hstop with hs | hs <;> subst hs <;> cases hst <;> assumption
    exact (sent_of_idle h1 (by simp [stalled, hsel]) (by simp [pendingSend, hsel])).2

/-- C7 on the run `cancelLate`, which ends by cancellation. -/
theorem no_item_dropped_witness :
    exec (init String Int) cancelLate = some endCancelLate ∧ endCancelLate.pc = PC.done ∧
    received cancelLate = [⟨"A", 1⟩] ∧ sent cancelLate = [(0, ⟨"A", 1⟩)] ∧
    (sent cancelLate).length = (received cancelLate).length :=
  ⟨by decide, by decide, by decide, by decide,
    (no_item_dropped cancelLate endCancelLate (by decide) (by decide)).2.2.1⟩

/-- C8. The registry starts empty.  At every point of every run: whatever
happens next, a key that is bound stays bound to the same ID and channel;
each key has one entry, and no two keys of the registry are `==`; distinct
keys (keys that are not `==`) are bound to distinct IDs and to distinct
channels; and the IDs in the registry are exactly `1, ..., chanID - 1`, one
entry each. -/
theorem registry_invariant (tr : List (Event K V)) (s : State K V)
    (hrun : exec (init K V) tr = some s) :
    (init K V).fanOutMap = [] ∧
    (∀ tr1 s1, exec s tr1 = some s1 → ∀ k ic, mapGet s.fanOutMap k = some ic →
      mapGet s1.fanOutMap k = some ic) ∧
    (s.fanOutMap.map Prod.fst).Nodup ∧
    (s.fanOutMap.map Prod.fst).Pairwise (fun a b => GoKey.eq a b = false) ∧
    (∀ k k1 ic ic1, mapGet s.fanOutMap k = some ic → mapGet s.fanOutMap k1 = some ic1 →
      GoKey.eq k k1 = false → ic.ID ≠ ic1.ID ∧ ic.Chan ≠ ic1.Chan) ∧
    s.fanOutMap.map (fun e => e.2.ID) = List.range' 1 (s.chanID - 1) ∧
    s.fanOutMap.length = s.chanID - 1 := by
  have hwf := wf_of_exec hrun
  refine ⟨rfl, ?_, keysApart_nodup hwf.2.2.1, ?_, ?_, registry_ids hrun, ?_⟩
  · intro tr1 s1 h1 k ic hk
    exact exec_mapGet h1 k ic hk
  · exact List.Pairwise.imp (fun h => h.1) hwf.2.2.1
  · intro k k1 ic ic1 hk hk1 hne
    obtain ⟨i, _, hi⟩ := wf_chan hwf k (by simp [hk])
    obtain ⟨j, _, hj⟩ := wf_chan hwf k1 (by simp [hk1])
    rw [hk] at hi
    rw [hk1] at hj
    cases hi
    cases hj
    have hij : i ≠ j := by
      intro hij
      subst hij
      have hc : (mapIndex s.fanOutMap k).Chan = some i := by simp [mapIndex, hk, chanOfSerial]
      have hc1 : (mapIndex s.fanOutMap k1).Chan = some i := by
        simp [mapIndex, hk1, chanOfSerial]
      rw [chan_injective hwf hc hc1] at hne
      cases hne
    simp only [chanOfSerial, ne_eq, Nat.add_right_cancel_iff, Option.some.injEq]
    exact ⟨hij, hij⟩
  · have := congrArg List.length (registry_ids hrun)
    simpa using this

/-- C8 on the run `runABA`. -/
theorem registry_invariant_witness :
    exec (init String Int) runABA = some endABA ∧
    endABA.fanOutMap.map (fun e => e.2.ID) = [1, 2] ∧ endABA.chanID = 3 ∧
    endABA.fanOutMap.length = endABA.chanID - 1 :=
  ⟨by decide, by decide, by decide,
    (registry_invariant runABA endABA (by decide)).2.2.2.2.2.2⟩

/-- C9. At every point of a run where the dispatcher is suspended at the send
on `fanOutCh` (line 42) or at the send on an output channel (line 44), no pair
can be received, the end of the input cannot be observed and the cancellation
cannot be taken; the one event that can happen is the receipt of the pending
value by a consumer.  That event can happen, unless the key of the pair is
not `==` to itself and the send of line 44 is on the nil channel, where
nothing can happen any more. -/
theorem blocked_on_send (tr : List (Event K V)) (s : State K V)
    (hrun : exec (init K V) tr = some s) (kvp : KeyValuePair K V)
    (hpc : s.pc = PC.announce kvp ∨ s.pc = PC.forward kvp) :
    (∀ kvp1, step s (Event.recv kvp1) = none) ∧
    step s Event.inputClosed = none ∧ step s Event.cancelled = none ∧
    (∀ e s1, step s e = some s1 →
      (s.pc = PC.announce kvp ∧ e = Event.announce (mapIndex s.fanOutMap kvp.Key) ∧
        s1 = { s with pc := PC.forward kvp }) ∨
      (s.pc = PC.forward kvp ∧ s1 = { s with pc := PC.select } ∧
        ∃ c, (mapIndex s.fanOutMap kvp.Key).Chan = some c ∧ e = Event.send c kvp)) ∧
    (s.pc = PC.announce kvp ∨ GoKey.eq kvp.Key kvp.Key = true → ∃ e s1, step s e = some s1) ∧
    (s.pc = PC.forward kvp → GoKey.eq kvp.Key kvp.Key = false → ∀ e, step s e = none) := by
  have hwf := wf_of_exec hrun
  have hinv := hwf.2.2.2.1
  refine ⟨?_, ?_, ?_, ?_, ?_, ?_⟩
  · intro kvp1
    rcases hpc with h | h <;> simp [step, h, stepAnnounce, stepForward]
  · rcases hpc with h | h <;> simp [step, h, stepAnnounce, stepForward]
  · rcases hpc with h | h <;> simp [step, h, stepAnnounce, stepForward]
  · intro e s1 hst
    have hst1 := step_sound hst
    rcases hpc with h | h
    · left
      simp only [PCInv, h] at hinv
      cases hst1 with
      | announce kvp1 hpc1 hopen =>
        rw [h] at hpc1
        cases hpc1
        exact ⟨h, rfl, rfl⟩
      | announcePanic kvp1 hpc1 hclosed => simp [hinv.2.1] at hclosed
      | _ => simp_all
    · right
      simp only [PCInv, h] at hinv
      cases hst1 with
      | send kvp1 ch hpc1 hch hopen =>
        rw [h] at hpc1
        cases hpc1
        exact ⟨h, rfl, ch, hch, rfl⟩
      | sendPanic kvp1 ch hpc1 hch hclosed => simp [hinv.1] at hclosed
      | _ => simp_all
  · intro hcan
    rcases hpc with h | h
    · simp only [PCInv, h] at hinv
      exact ⟨_, _, step_complete hwf (Step.announce s kvp h hinv.2.1)⟩
    · simp only [PCInv, h] at hinv
      have hkk : GoKey.eq kvp.Key kvp.Key = true := by
        rcases hcan with hc | hc
        · rw [h] at hc
          cases hc
        · exact hc
      obtain ⟨i, _, hi⟩ := wf_chan hwf kvp.Key (hinv.2.2 hkk)
      exact ⟨_, _, step_complete hwf (Step.send s kvp i h
        (by simp only [mapIndex, hi, chanOfSerial, Option.getD_some]) (by simp [hinv.1]))⟩
  · intro h hkk e
    cases hst : step s e with
    | none => rfl
    | some s1 =>
      exfalso
      have hst1 := step_sound hst
      cases hst1 with
      | send kvp1 ch hpc1 hch hopen =>
        rw [h] at hpc1
        cases hpc1
        rw [self_eq_of_chan hch] at hkk
        cases hkk
      | sendPanic kvp1 ch hpc1 hch hclosed =>
        rw [h] at hpc1
        cases hpc1
        rw [self_eq_of_chan hch] at hkk
        cases hkk
      | _ => simp_all

/-- C9 at the state `blockedA`, suspended at the announcement of the channel
of `A`. -/
theorem blocked_on_send_witness :
    exec (init String Int) [Event.recv ⟨"A", 1⟩] = some blockedA ∧
    blockedA.pc = PC.announce ⟨"A", 1⟩ ∧
    step blockedA (Event.recv ⟨"B", 2⟩) = none ∧
    step blockedA Event.cancelled = none ∧
    (step blockedA (Event.announce ⟨1, some 0⟩)).isSome = true ∧
    step blockedA Event.inputClosed = none :=
  ⟨by decide, by decide, by decide, by decide, by decide,
    (blocked_on_send [Event.recv ⟨"A", 1⟩] blockedA (by decide) ⟨"A", 1⟩
      (Or.inl (by decide))).2.1⟩

/-- C10. No run reaches the panic of a channel operation: no state of a run is
the panicked one and no event of a run is a panic.  In every run each output
channel is closed at most once and `fanOutCh` at most once; the channels of
the registry are pairwise distinct, and a run that has returned has closed
each of them once; and after a close of any channel the run receives,
announces and sends nothing more. -/
theorem no_channel_panic (tr : List (Event K V)) (s : State K V)
    (hrun : exec (init K V) tr = some s) :
    s.pc ≠ PC.panicked ∧ Event.panic ∉ tr ∧
    (closedChans tr).Nodup ∧ tr.count Event.closeFanOutCh ≤ 1 ∧
    (s.fanOutMap.map (fun e => e.2.Chan)).Nodup ∧
    (s.pc = PC.done →
      List.Perm ((closedChans tr).map some) (s.fanOutMap.map (fun e => e.2.Chan))) ∧
    (∀ (pre post : List (Event K V)) (e : Event K V), tr = pre ++ e :: post →
      (e = Event.closeFanOutCh ∨ ∃ c, e = Event.closeChan c) →
      ∀ x ∈ post, isLoopEvent x = false) := by
  have hwf := wf_of_exec hrun
  refine ⟨?_, panic_not_mem hrun, ?_, closeFanOutCh_count hrun, ?_, ?_, ?_⟩
  · intro hp
    have hinv := hwf.2.2.2.1
    simp [PCInv, hp] at hinv
  · rw [closedChans_eq hrun]
    exact List.nodup_reverse.mpr (closed_nodup hwf)
  · rw [registry_chans hwf]
    exact (List.nodup_range _).map (Option.some_injective _)
  · intro hdone
    have hinv := hwf.2.2.2.1
    simp only [PCInv, hdone] at hinv
    rw [closedChans_eq hrun, registry_chans hwf]
    exact ((List.reverse_perm _).trans hinv.2).map some
  · intro pre post e htr he
    refine after_loop hrun pre post e htr ?_
    rcases he with he | ⟨c, he⟩ <;> subst he <;> rfl

/-- C10 on the run `runABA`. -/
theorem no_channel_panic_witness :
    exec (init String Int) runABA = some endABA ∧
    closedChans runABA = [1, 0] ∧ runABA.count Event.closeFanOutCh = 1 ∧
    Event.panic ∉ runABA :=
  ⟨by decide, by decide, by decide, (no_channel_panic runABA endABA (by decide)).2.1⟩

end Claims

end FanOut
